import Mathlib

/-!
# gengo: message registry and MD5 fingerprint (`gengo/context.go`)

A shallow embedding of `MsgContext` and of its loaders and fingerprint
functions.  Go strings are modelled by `String`, Go maps by association
lists read through their first matching key, `*MsgSpec` pointers by the
value they point to, and the mutable receiver `ctx` by explicit state
passing: every method returns the context it leaves behind.  The recursion
between `ComputeMD5Text`, `LoadMsg` and `ComputeMsgMD5` is not bounded in
the source, so `ComputeMD5Text` takes the recursion depth it may use and
returns `none` when that depth is exhausted.
-/

set_option autoImplicit false

namespace Gengo

/-! ## Strings (`strings`, `fmt`, `bytes.Buffer`) -/

/-- Worker of `Split` for a non-empty separator: `acc` holds, reversed, the
characters of the current piece; the first argument bounds the number of
steps and is never exhausted when it exceeds the length of the text. -/
def splitAux (sep : List Char) : Nat → List Char → List Char → List (List Char)
  | 0, s, acc => [acc.reverse ++ s]
  | _ + 1, [], acc => [acc.reverse]
  | n + 1, c :: cs, acc =>
    if sep.isPrefixOf (c :: cs) then
      acc.reverse :: splitAux sep n ((c :: cs).drop sep.length) []
    else
      splitAux sep n cs (c :: acc)

/-- Character-level `strings.Split`: an empty separator explodes the text,
any other separator cuts it at each occurrence found from the left. -/
def splitChars (s sep : List Char) : List (List Char) :=
  if sep = [] then s.map (fun c => [c]) else splitAux sep (s.length + 1) s []

/-- Go `strings.Split(s, sep)`. -/
def Split (s sep : String) : List String :=
  (splitChars s.data sep.data).map String.mk

/-- Character-level `strings.Contains`. -/
def containsChars (sub : List Char) : List Char → Bool
  | [] => sub.isPrefixOf []
  | c :: cs => sub.isPrefixOf (c :: cs) || containsChars sub cs

/-- Go `strings.Contains(s, substr)`. -/
def Contains (s substr : String) : Bool :=
  containsChars substr.data s.data

/-- Removes from the front of `s` every character found in `cutset`. -/
def trimLeftChars (cutset : List Char) : List Char → List Char
  | [] => []
  | c :: cs => if c ∈ cutset then trimLeftChars cutset cs else c :: cs

/-- Go `strings.Trim(s, cutset)`: leading and trailing characters of `cutset`
are removed. -/
def Trim (s cutset : String) : String :=
  String.mk (trimLeftChars cutset.data (trimLeftChars cutset.data s.data).reverse).reverse

/-- Go `strings.Join(elems, sep)`. -/
def Join : List String → String → String
  | [], _ => ""
  | [a], _ => a
  | a :: b :: rest, sep => a ++ sep ++ Join (b :: rest) sep

/-- Worker of `Count` for a non-empty separator: the number of occurrences
found from the left, each search starting after the occurrence before; the
first argument bounds the number of steps as in `splitAux`. -/
def countAux (sep : List Char) : Nat → List Char → Nat
  | 0, _ => 0
  | _ + 1, [] => 0
  | n + 1, c :: cs =>
    if sep.isPrefixOf (c :: cs) then 1 + countAux sep n ((c :: cs).drop sep.length)
    else countAux sep n cs

/-- Character-level `strings.Count`. -/
def countChars (s sep : List Char) : Nat :=
  if sep = [] then s.length + 1 else countAux sep (s.length + 1) s

/-- Go `strings.Count(s, substr)`: the number of non-overlapping instances of
`substr` in `s`. -/
def Count (s substr : String) : Nat :=
  countChars s.data substr.data

/-- Character-level `strings.Join`. -/
def joinChars (sep : List Char) : List (List Char) → List Char
  | [] => []
  | [a] => a
  | a :: b :: rest => a ++ sep ++ joinChars sep (b :: rest)

/-! ## Bytes, `encoding/hex` and `crypto/md5` -/

/-- UTF-8 encoding of one character, as byte values. -/
def utf8Char (c : Char) : List Nat :=
  let v := c.toNat
  if v < 0x80 then [v]
  else if v < 0x800 then [0xC0 + v / 64, 0x80 + v % 64]
  else if v < 0x10000 then [0xE0 + v / 4096, 0x80 + v / 64 % 64, 0x80 + v % 64]
  else [0xF0 + v / 262144, 0x80 + v / 4096 % 64, 0x80 + v / 64 % 64, 0x80 + v % 64]

/-- Go `[]byte(s)` for a string holding valid UTF-8. -/
def toBytes (s : String) : List Nat :=
  s.data.flatMap utf8Char

/-- One lower-case hexadecimal digit. -/
def hexDigit (n : Nat) : Char :=
  "0123456789abcdef".data.getD n '0'

/-- Go `hex.EncodeToString`. -/
def EncodeToString (bs : List Nat) : String :=
  String.mk (bs.flatMap (fun b => [hexDigit (b / 16 % 16), hexDigit (b % 16)]))

/-- Little-endian bytes of a 32-bit word. -/
def le32 (w : Nat) : List Nat :=
  [w % 256, w / 256 % 256, w / 65536 % 256, w / 16777216 % 256]

/-- Little-endian 32-bit word read from the first four bytes of a list. -/
def word32 (bs : List Nat) : Nat :=
  bs.getD 0 0 + 256 * bs.getD 1 0 + 65536 * bs.getD 2 0 + 16777216 * bs.getD 3 0

/-- Rotation to the left of a 32-bit word. -/
def rotl32 (x s : Nat) : Nat :=
  ((x <<< s) ||| (x >>> (32 - s))) % 4294967296

/-- Bitwise complement of a 32-bit word. -/
def not32 (x : Nat) : Nat :=
  4294967295 - x % 4294967296

/-- The sine table of RFC 1321. -/
def md5K : List Nat :=
  [0xd76aa478, 0xe8c7b756, 0x242070db, 0xc1bdceee, 0xf57c0faf, 0x4787c62a, 0xa8304613, 0xfd469501,
   0x698098d8, 0x8b44f7af, 0xffff5bb1, 0x895cd7be, 0x6b901122, 0xfd987193, 0xa679438e, 0x49b40821,
   0xf61e2562, 0xc040b340, 0x265e5a51, 0xe9b6c7aa, 0xd62f105d, 0x02441453, 0xd8a1e681, 0xe7d3fbc8,
   0x21e1cde6, 0xc33707d6, 0xf4d50d87, 0x455a14ed, 0xa9e3e905, 0xfcefa3f8, 0x676f02d9, 0x8d2a4c8a,
   0xfffa3942, 0x8771f681, 0x6d9d6122, 0xfde5380c, 0xa4beea44, 0x4bdecfa9, 0xf6bb4b60, 0xbebfbc70,
   0x289b7ec6, 0xeaa127fa, 0xd4ef3085, 0x04881d05, 0xd9d4d039, 0xe6db99e5, 0x1fa27cf8, 0xc4ac5665,
   0xf4292244, 0x432aff97, 0xab9423a7, 0xfc93a039, 0x655b59c3, 0x8f0ccc92, 0xffeff47d, 0x85845dd1,
   0x6fa87e4f, 0xfe2ce6e0, 0xa3014314, 0x4e0811a1, 0xf7537e82, 0xbd3af235, 0x2ad7d2bb, 0xeb86d391]

/-- The per-round shift amounts of RFC 1321. -/
def md5S : List Nat :=
  [7, 12, 17, 22, 7, 12, 17, 22, 7, 12, 17, 22, 7, 12, 17, 22,
   5, 9, 14, 20, 5, 9, 14, 20, 5, 9, 14, 20, 5, 9, 14, 20,
   4, 11, 16, 23, 4, 11, 16, 23, 4, 11, 16, 23, 4, 11, 16, 23,
   6, 10, 15, 21, 6, 10, 15, 21, 6, 10, 15, 21, 6, 10, 15, 21]

/-- The four chaining words of MD5. -/
structure MD5State where
  a : Nat
  b : Nat
  c : Nat
  d : Nat
  deriving DecidableEq

/-- The initial chaining value. -/
def md5Init : MD5State :=
  ⟨0x67452301, 0xefcdab89, 0x98badcfe, 0x10325476⟩

/-- One of the 64 operations of the compression function on the message
words `m`. -/
def md5Round (m : List Nat) (st : MD5State) (i : Nat) : MD5State :=
  let f :=
    if i < 16 then (st.b &&& st.c) ||| (not32 st.b &&& st.d)
    else if i < 32 then (st.d &&& st.b) ||| (not32 st.d &&& st.c)
    else if i < 48 then st.b ^^^ st.c ^^^ st.d
    else st.c ^^^ (st.b ||| not32 st.d)
  let g :=
    if i < 16 then i
    else if i < 32 then (5 * i + 1) % 16
    else if i < 48 then (3 * i + 5) % 16
    else (7 * i) % 16
  let t := (f + st.a + md5K.getD i 0 + m.getD g 0) % 4294967296
  ⟨st.d, (st.b + rotl32 t (md5S.getD i 0)) % 4294967296, st.b, st.c⟩

/-- The compression function applied to one 64-byte block. -/
def md5Block (st : MD5State) (block : List Nat) : MD5State :=
  let m := (List.range 16).map (fun j => word32 (block.drop (4 * j)))
  let r := (List.range 64).foldl (md5Round m) st
  ⟨(st.a + r.a) % 4294967296, (st.b + r.b) % 4294967296,
   (st.c + r.c) % 4294967296, (st.d + r.d) % 4294967296⟩

/-- The message followed by the bit 1, zero bytes up to 56 modulo 64, and the
bit length as a little-endian 64-bit number. -/
def md5Pad (msg : List Nat) : List Nat :=
  let n := msg.length
  let bits := 8 * n % 18446744073709551616
  msg ++ [0x80] ++ List.replicate ((119 - n % 64) % 64) 0
    ++ le32 (bits % 4294967296) ++ le32 (bits / 4294967296)

/-- Folds the compression function over the given number of blocks. -/
def md5Blocks : Nat → MD5State → List Nat → MD5State
  | 0, st, _ => st
  | n + 1, st, bs => md5Blocks n (md5Block st (bs.take 64)) (bs.drop 64)

/-- The 16 digest bytes of a byte string (RFC 1321). -/
def md5Sum (msg : List Nat) : List Nat :=
  let p := md5Pad msg
  let st := md5Blocks (p.length / 64) md5Init p
  le32 st.a ++ le32 st.b ++ le32 st.c ++ le32 st.d

/-- A `hash.Hash` obtained from `md5.New()`: the bytes written so far. -/
structure Hash where
  written : List Nat
  deriving DecidableEq

/-- Go `md5.New()`. -/
def md5New : Hash :=
  ⟨[]⟩

/-- Go `hash.Write(p)`. -/
def Hash.Write (h : Hash) (p : List Nat) : Hash :=
  ⟨h.written ++ p⟩

/-- Go `hash.Sum(nil)`. -/
def Hash.Sum (h : Hash) : List Nat :=
  md5Sum h.written

/-! ## Data model -/

/-- Modelled from the spec: the arity of a field (scalar, variable-length
array, fixed-length array of size N); the declaration of `Field` is not in
the sources at hand. -/
inductive Arity where
  | scalar
  | variable
  | fixed (n : Nat)
  deriving DecidableEq

/-- Modelled from the spec: the record `Field` ("FieldSpec": name, type name,
package, arity).  `context.go` reads `Package`, `Type` and `Name`; the Go
field `Type` is spelled `Type_` here. -/
structure Field where
  Package : String
  Type_ : String
  Name : String
  Arity : Arity
  deriving DecidableEq

/-- Modelled from the spec: the record `Constant` ("ConstantSpec": type, name,
value text).  The Go field `Type` is spelled `Type_` here. -/
structure Constant where
  Type_ : String
  Name : String
  ValueText : String
  deriving DecidableEq

/-- Modelled from the spec: the record `MsgSpec` (ordered fields and constants,
raw text, full name, package, short name, memoized digest `MD5Sum`). -/
structure MsgSpec where
  Fields : List Field
  Constants : List Constant
  Text : String
  FullName : String
  Package : String
  ShortName : String
  MD5Sum : String
  deriving DecidableEq

/-- The record `SrvSpec`, in the order of the composite literal of
`LoadSrvFromString`; the names of its first four members are modelled from
the spec. -/
structure SrvSpec where
  Package : String
  ShortName : String
  FullName : String
  Text : String
  MD5Sum : String
  Request : MsgSpec
  Response : MsgSpec
  deriving DecidableEq

/-- Go error values, one constructor for each place that creates one. -/
inductive Error where
  /-- an error returned by `packageResourceName` -/
  | resourceName (msg : String)
  /-- the call `NewSyntaxError(fullName, line, message)` -/
  | syntaxError (fullName : String) (line : Nat) (message : String)
  /-- an error returned by `ioutil.ReadFile` -/
  | readFile (msg : String)
  /-- the `fmt.Errorf` of `LoadMsg` -/
  | msgNotFound (fullName : String)
  /-- the `fmt.Errorf` of `LoadSrv` -/
  | srvNotFound (fullName : String)
  /-- the `fmt.Errorf` of `LoadSrvFromString` -/
  | missingSeparator
  deriving DecidableEq

/-- Modelled from the spec: `NewSyntaxError`, which is not in the sources at
hand, keeps the full name, the line and the message it is given. -/
def NewSyntaxError (fullName : String) (line : Nat) (message : String) : Error :=
  Error.syntaxError fullName line message

set_option linter.dupNamespace false in
/-- The text of an error (`err.Error()`); the syntax error is rendered as
the spec gives it, `"<fullName>:<line>: <message>"`. -/
def Error.Error : Error → String
  | .resourceName msg => msg
  | .syntaxError fullName line message => fullName ++ ":" ++ toString line ++ ": " ++ message
  | .readFile msg => msg
  | .msgNotFound fullName => "message definition of \x60" ++ fullName ++ "\x60 is not found"
  | .srvNotFound fullName => "service definition of \x60" ++ fullName ++ "\x60 is not found"
  | .missingSeparator => "syntax error: missing \x27---\x27"

/-- The outcome of a Go function returning `(T, error)`. -/
inductive Result (α : Type) where
  | ok (value : α)
  | error (err : Error)
  deriving DecidableEq

/-- A Go `map[string]T` as the list of its bindings, read through the first
binding of a key. -/
abbrev Map (α : Type) := List (String × α)

/-- Go `v, ok := m[k]`. -/
def Map.get {α : Type} : Map α → String → Option α
  | [], _ => none
  | (k, v) :: rest, key => if k = key then some v else Map.get rest key

/-- Go `delete(m, k)`. -/
def Map.erase {α : Type} : Map α → String → Map α
  | [], _ => []
  | (k, v) :: rest, key => if k = key then Map.erase rest key else (k, v) :: Map.erase rest key

/-- Go `m[k] = v`: the binding of `k`, if any, is replaced. -/
def Map.set {α : Type} (m : Map α) (k : String) (v : α) : Map α :=
  (k, v) :: m.erase k

/-- The struct `MsgContext`. -/
structure MsgContext where
  msgPathMap : Map String
  srvPathMap : Map String
  msgRegistry : Map MsgSpec
  deriving DecidableEq

deriving instance DecidableEq for Except

/-- The parsing helpers that `context.go` calls and that are not in the
sources at hand, taken as parameters: the constant `ConstChar` and the
functions `packageResourceName`, `stripComment`, `loadConstantLine` and
`loadFieldLine`.  Each of them returns, when it fails, the text of its
error. -/
structure Helpers where
  ConstChar : String
  packageResourceName : String → Except String (String × String)
  stripComment : String → String
  loadConstantLine : String → Except String Constant
  loadFieldLine : String → String → Except String Field

/-- The file system seen by `ioutil.ReadFile`: the content of a path, or the
text of the error. -/
abbrev FileSystem := String → Except String String

/-- A Go call that returns `(T, error)` and may change the context; `none`
stands for a recursion that exceeded the depth it was given. -/
abbrev Call (α : Type) := Option (Result α × MsgContext)

/-! ## `context.go` -/

/-- Modelled from the spec: `NewMsgSpec` with the options
`OptionPackageName` and `OptionShortName`, none of them in the sources at
hand; the digest is absent until computed. -/
def NewMsgSpec (fields : List Field) (constants : List Constant) (text fullName : String)
    (packageName shortName : String) : MsgSpec :=
  { Fields := fields, Constants := constants, Text := text, FullName := fullName,
    Package := packageName, ShortName := shortName, MD5Sum := "" }

/-- The method `MsgContext.Register`. -/
def Register (ctx : MsgContext) (fullName : String) (spec : MsgSpec) : MsgContext :=
  { ctx with msgRegistry := ctx.msgRegistry.set fullName spec }

/-- The loop of `LoadMsgFromString` over the lines that remain, `lineno` being
the index of the first of them. -/
def loadLines (P : Helpers) (fullName packageName : String) :
    List String → Nat → List Field → List Constant → Result (List Field × List Constant)
  | [], _, fields, constants => .ok (fields, constants)
  | origLine :: rest, lineno, fields, constants =>
    let cleanLine := P.stripComment origLine
    if cleanLine.length = 0 then
      loadLines P fullName packageName rest (lineno + 1) fields constants
    else if Contains cleanLine P.ConstChar then
      match P.loadConstantLine origLine with
      | .error e => .error (NewSyntaxError fullName lineno e)
      | .ok constant =>
        loadLines P fullName packageName rest (lineno + 1) fields (constants ++ [constant])
    else
      match P.loadFieldLine origLine packageName with
      | .error e => .error (NewSyntaxError fullName lineno e)
      | .ok field =>
        loadLines P fullName packageName rest (lineno + 1) (fields ++ [field]) constants

/-- The message with which the loop of `LoadMsgFromString` rejects a line, if
it does: the line is not blank and the loader chosen for it fails. -/
def lineError (P : Helpers) (packageName origLine : String) : Option String :=
  let cleanLine := P.stripComment origLine
  if cleanLine.length = 0 then none
  else if Contains cleanLine P.ConstChar then
    match P.loadConstantLine origLine with
    | .error e => some e
    | .ok _ => none
  else
    match P.loadFieldLine origLine packageName with
    | .error e => some e
    | .ok _ => none

section Recursion

variable (P : Helpers) (fs : FileSystem)
variable (md5Text : MsgContext → MsgSpec → Call String)

/-- The body of `ComputeMsgMD5`, over the `ComputeMD5Text` it calls. -/
def ComputeMsgMD5With (ctx : MsgContext) (spec : MsgSpec) : Call String :=
  match md5Text ctx spec with
  | none => none
  | some (.error err, ctx1) => some (.error err, ctx1)
  | some (.ok md5text, ctx1) =>
    let hash := md5New.Write (toBytes md5text)
    some (.ok (EncodeToString hash.Sum), ctx1)

/-- The body of `LoadMsgFromString`, over the `ComputeMD5Text` it calls. -/
def LoadMsgFromStringWith (ctx : MsgContext) (text fullName : String) : Call MsgSpec :=
  match P.packageResourceName fullName with
  | .error e => some (.error (.resourceName e), ctx)
  | .ok (packageName, shortName) =>
    match loadLines P fullName packageName (Split text "\n") 0 [] [] with
    | .error e => some (.error e, ctx)
    | .ok (fields, constants) =>
      let spec := NewMsgSpec fields constants text fullName packageName shortName
      match ComputeMsgMD5With md5Text ctx spec with
      | none => none
      | some (.error err, ctx1) => some (.error err, ctx1)
      | some (.ok md5sum, ctx1) =>
        let spec := { spec with MD5Sum := md5sum }
        some (.ok spec, Register ctx1 fullName spec)

/-- The body of `LoadMsgFromFile`, over the `ComputeMD5Text` it calls. -/
def LoadMsgFromFileWith (ctx : MsgContext) (filePath fullName : String) : Call MsgSpec :=
  match fs filePath with
  | .error e => some (.error (.readFile e), ctx)
  | .ok text => LoadMsgFromStringWith P md5Text ctx text fullName

/-- The body of `LoadMsg`, over the `ComputeMD5Text` it calls. -/
def LoadMsgWith (ctx : MsgContext) (fullName : String) : Call MsgSpec :=
  match ctx.msgRegistry.get fullName with
  | some spec => some (.ok spec, ctx)
  | none =>
    match ctx.msgPathMap.get fullName with
    | some path =>
      match LoadMsgFromFileWith P fs md5Text ctx path fullName with
      | none => none
      | some (.error err, ctx1) => some (.error err, ctx1)
      | some (.ok spec, ctx1) =>
        some (.ok spec, { ctx1 with msgRegistry := ctx1.msgRegistry.set fullName spec })
    | none => some (.error (.msgNotFound fullName), ctx)

/-- The loop of `ComputeMD5Text` over `spec.Constants`, on the buffer `buf`. -/
def constantsLoop : List Constant → String → String
  | [], buf => buf
  | c :: rest, buf =>
    constantsLoop rest (buf ++ (c.Type_ ++ " " ++ c.Name ++ "=" ++ c.ValueText ++ "\n"))

/-- The loop of `ComputeMD5Text` over the fields that remain and its final
return, on the buffer `buf`. -/
def fieldsLoop : List Field → MsgContext → String → Call String
  | [], ctx, buf => some (.ok (Trim buf "\n"), ctx)
  | f :: rest, ctx, buf =>
    if f.Package = "" then
      fieldsLoop rest ctx (buf ++ (f.Type_ ++ " " ++ f.Name ++ "\n"))
    else
      match LoadMsgWith P fs md5Text ctx (f.Package ++ "/" ++ f.Type_) with
      | none => none
      | some (.error _, ctx1) => some (.ok "", ctx1)
      | some (.ok subspec, ctx1) =>
        match ComputeMsgMD5With md5Text ctx1 subspec with
        | none => none
        | some (.error _, ctx2) => some (.ok "", ctx2)
        | some (.ok submd5, ctx2) =>
          fieldsLoop rest ctx2 (buf ++ (submd5 ++ " " ++ f.Name ++ "\n"))

end Recursion

/-- The method `MsgContext.ComputeMD5Text`; the first argument is the depth of nested
definitions the call may descend into. -/
def ComputeMD5Text (P : Helpers) (fs : FileSystem) : Nat → MsgContext → MsgSpec → Call String
  | 0, _, _ => none
  | depth + 1, ctx, spec =>
    fieldsLoop P fs (ComputeMD5Text P fs depth) spec.Fields ctx (constantsLoop spec.Constants "")

/-- The method `MsgContext.ComputeMsgMD5`. -/
def ComputeMsgMD5 (P : Helpers) (fs : FileSystem) (depth : Nat) (ctx : MsgContext)
    (spec : MsgSpec) : Call String :=
  ComputeMsgMD5With (ComputeMD5Text P fs depth) ctx spec

/-- The method `MsgContext.LoadMsgFromString`. -/
def LoadMsgFromString (P : Helpers) (fs : FileSystem) (depth : Nat) (ctx : MsgContext)
    (text fullName : String) : Call MsgSpec :=
  LoadMsgFromStringWith P (ComputeMD5Text P fs depth) ctx text fullName

/-- The method `MsgContext.LoadMsgFromFile`. -/
def LoadMsgFromFile (P : Helpers) (fs : FileSystem) (depth : Nat) (ctx : MsgContext)
    (filePath fullName : String) : Call MsgSpec :=
  LoadMsgFromFileWith P fs (ComputeMD5Text P fs depth) ctx filePath fullName

/-- The method `MsgContext.LoadMsg`. -/
def LoadMsg (P : Helpers) (fs : FileSystem) (depth : Nat) (ctx : MsgContext)
    (fullName : String) : Call MsgSpec :=
  LoadMsgWith P fs (ComputeMD5Text P fs depth) ctx fullName

/-- The method `MsgContext.ComputeSrvMD5`. -/
def ComputeSrvMD5 (P : Helpers) (fs : FileSystem) (depth : Nat) (ctx : MsgContext)
    (spec : SrvSpec) : Call String :=
  match ComputeMD5Text P fs depth ctx spec.Request with
  | none => none
  | some (.error err, ctx1) => some (.error err, ctx1)
  | some (.ok reqText, ctx1) =>
    match ComputeMD5Text P fs depth ctx1 spec.Response with
    | none => none
    | some (.error err, ctx2) => some (.error err, ctx2)
    | some (.ok resText, ctx2) =>
      let hash := (md5New.Write (toBytes reqText)).Write (toBytes resText)
      some (.ok (EncodeToString hash.Sum), ctx2)

/-- The method `MsgContext.LoadSrvFromString`. -/
def LoadSrvFromString (P : Helpers) (fs : FileSystem) (depth : Nat) (ctx : MsgContext)
    (text fullName : String) : Call SrvSpec :=
  match P.packageResourceName fullName with
  | .error err => some (.error (.resourceName err), ctx)
  | .ok (packageName, shortName) =>
    let components := Split text "---"
    if components.length ≠ 2 then
      some (.error .missingSeparator, ctx)
    else
      let reqText := components.getD 0 ""
      let resText := components.getD 1 ""
      match LoadMsgFromString P fs depth ctx reqText (fullName ++ "Request") with
      | none => none
      | some (.error err, ctx1) => some (.error err, ctx1)
      | some (.ok reqSpec, ctx1) =>
        match LoadMsgFromString P fs depth ctx1 resText (fullName ++ "Response") with
        | none => none
        | some (.error err, ctx2) => some (.error err, ctx2)
        | some (.ok resSpec, ctx2) =>
          let spec : SrvSpec := ⟨packageName, shortName, fullName, text, "", reqSpec, resSpec⟩
          match ComputeSrvMD5 P fs depth ctx2 spec with
          | none => none
          | some (.error err, ctx3) => some (.error err, ctx3)
          | some (.ok md5sum, ctx3) => some (.ok { spec with MD5Sum := md5sum }, ctx3)

/-! ## The parsing helpers, from the specification of the definition grammar -/

/-- Blank characters between the tokens of a line. -/
def isBlank (c : Char) : Bool :=
  c = ' ' || c = '\t' || c = '\r' || c = '\n'

/-- A text without its leading and trailing blanks. -/
def trimBlanks (s : List Char) : List Char :=
  ((s.dropWhile isBlank).reverse.dropWhile isBlank).reverse

/-- The blank-separated tokens of a text; `acc` holds, reversed, the token
being read. -/
def tokensAux : List Char → List Char → List (List Char)
  | [], acc => if acc = [] then [] else [acc.reverse]
  | c :: cs, acc =>
    if isBlank c then
      if acc = [] then tokensAux cs [] else acc.reverse :: tokensAux cs []
    else tokensAux cs (c :: acc)

/-- An identifier: a letter followed by letters, digits and underscores. -/
def isIdentifier : List Char → Bool
  | [] => false
  | c :: cs => c.isAlpha && cs.all (fun d => d.isAlphanum || d = '_')

/-- Modelled from the spec: the fixed set of builtin type names (boolean,
signed and unsigned integers of widths 8 to 64, 32 and 64-bit floats,
string, time, duration, byte, char); the table is not in the sources at
hand. -/
def builtinTypes : List String :=
  ["bool", "int8", "uint8", "int16", "uint16", "int32", "uint32", "int64", "uint64",
   "float32", "float64", "string", "time", "duration", "byte", "char"]

/-- Modelled from the spec: `stripComment`, not in the sources at hand, strips
everything from the comment character to the end of the line; blank lines
are those that become empty. -/
def specStripComment (line : String) : String :=
  String.mk (trimBlanks (line.data.takeWhile (fun c => c ≠ '#')))

/-- Modelled from the spec: `packageResourceName`, not in the sources at hand,
splits a full name `package/Type` into its package and its short name. -/
def specPackageResourceName (fullName : String) : Except String (String × String) :=
  match Split fullName "/" with
  | [packageName, shortName] => .ok (packageName, shortName)
  | _ => .error ("invalid name " ++ fullName)

/-- The decimal value of a string of digits. -/
def decimalValue (ds : List Char) : Nat :=
  ds.foldl (fun n d => 10 * n + (d.toNat - 48)) 0

/-- Modelled from the spec: the array suffix of a type, `[]` or `[N]` with N
a positive integer; returns the type without its suffix and the arity. -/
def specArity (ty : List Char) : Except String (List Char × Arity) :=
  let base := ty.takeWhile (fun c => c ≠ '[')
  let suffix := ty.dropWhile (fun c => c ≠ '[')
  match suffix with
  | [] => .ok (base, .scalar)
  | _ :: inner =>
    if inner = [']'] then .ok (base, .variable)
    else if inner.getLast? = some ']' ∧ inner.dropLast ≠ [] ∧ inner.dropLast.all Char.isDigit
        ∧ 0 < decimalValue inner.dropLast then
      .ok (base, .fixed (decimalValue inner.dropLast))
    else .error ("invalid array syntax " ++ String.mk ty)

/-- Modelled from the spec: `loadFieldLine`, not in the sources at hand, reads
a line `<type> <name>` whose type is `[package/]Identifier` with an optional
array suffix; a type without package that is no builtin belongs to the
enclosing package. -/
def specLoadFieldLine (line packageName : String) : Except String Field :=
  match tokensAux (specStripComment line).data [] with
  | [ty, name] =>
    if ¬ isIdentifier name then .error (String.mk name ++ " is not a legal field name")
    else
      match specArity ty with
      | .error e => .error e
      | .ok (base, arity) =>
        match splitChars base ['/'] with
        | [ident] =>
          if ¬ isIdentifier ident then .error ("invalid type " ++ String.mk ty)
          else if String.mk ident ∈ builtinTypes then .ok ⟨"", String.mk ident, String.mk name, arity⟩
          else .ok ⟨packageName, String.mk ident, String.mk name, arity⟩
        | [pkg, ident] =>
          if isIdentifier pkg ∧ isIdentifier ident then
            .ok ⟨String.mk pkg, String.mk ident, String.mk name, arity⟩
          else .error ("invalid type " ++ String.mk ty)
        | _ => .error ("invalid type " ++ String.mk ty)
  | _ => .error ("invalid declaration " ++ line)

/-- Modelled from the spec: `loadConstantLine`, not in the sources at hand,
reads a line `<type> <name>=<valueText>` whose type is a builtin scalar. -/
def specLoadConstantLine (line : String) : Except String Constant :=
  let clean := (specStripComment line).data
  let left := clean.takeWhile (fun c => c ≠ '=')
  let value := trimBlanks ((clean.dropWhile (fun c => c ≠ '=')).drop 1)
  match tokensAux left [] with
  | [ty, name] =>
    if String.mk ty ∉ builtinTypes then .error (String.mk ty ++ " is not a builtin type")
    else if ¬ isIdentifier name then .error (String.mk name ++ " is not a legal constant name")
    else if value = [] then .error "missing value"
    else .ok ⟨String.mk ty, String.mk name, String.mk value⟩
  | _ => .error ("invalid constant declaration " ++ line)

/-- Modelled from the spec: the helpers of the definition parser, with `=`
as the assignment token `ConstChar`. -/
def specHelpers : Helpers :=
  { ConstChar := "="
    packageResourceName := specPackageResourceName
    stripComment := specStripComment
    loadConstantLine := specLoadConstantLine
    loadFieldLine := specLoadFieldLine }

/-- A file system without any readable file. -/
def noFiles : FileSystem :=
  fun path => .error ("open " ++ path ++ ": no such file or directory")

/-- The context of `NewMsgContext` when no package is found. -/
def emptyContext : MsgContext :=
  { msgPathMap := [], srvPathMap := [], msgRegistry := [] }

/-! ## Sample inputs -/

/-- A file system holding three message files of the package `pkg`. -/
def sampleFiles : FileSystem := fun path =>
  if path = "/ros/pkg/msg/A.msg" then .ok "int32 x\nstring name"
  else if path = "/ros/pkg/msg/B.msg" then .ok "pkg/A a\nint32 n"
  else if path = "/ros/pkg/msg/Bad.msg" then .ok "int32 x\nfoo 1"
  else .error ("open " ++ path ++ ": no such file or directory")

/-- The context `NewMsgContext` builds over `sampleFiles`. -/
def sampleContext : MsgContext :=
  { msgPathMap := [("pkg/A", "/ros/pkg/msg/A.msg"), ("pkg/B", "/ros/pkg/msg/B.msg"),
                   ("pkg/Bad", "/ros/pkg/msg/Bad.msg")]
    srvPathMap := []
    msgRegistry := [] }

/-- The definition `pkg/A` of `sampleFiles`, loaded. -/
def sampleA : MsgSpec :=
  { Fields := [⟨"", "int32", "x", .scalar⟩, ⟨"", "string", "name", .scalar⟩]
    Constants := []
    Text := "int32 x\nstring name"
    FullName := "pkg/A"
    Package := "pkg"
    ShortName := "A"
    MD5Sum := "ca85c322958a9a81e938f6b9641ea3cf" }

/-- The definition `pkg/B` of `sampleFiles`, loaded. -/
def sampleB : MsgSpec :=
  { Fields := [⟨"pkg", "A", "a", .scalar⟩, ⟨"", "int32", "n", .scalar⟩]
    Constants := []
    Text := "pkg/A a\nint32 n"
    FullName := "pkg/B"
    Package := "pkg"
    ShortName := "B"
    MD5Sum := "ea339edd21a90b42f4434d772015c497" }

/-- An alternate source for `pkg/A`, loaded. -/
def sampleOverride : MsgSpec :=
  { Fields := [⟨"", "uint8", "y", .scalar⟩]
    Constants := []
    Text := "uint8 y"
    FullName := "pkg/A"
    Package := "pkg"
    ShortName := "A"
    MD5Sum := "beb7855a8d103bc9872eb9d51fa56660" }

/-- A definition whose second field refers to `foo/Bar`, which no package
provides. -/
def sampleDangling : MsgSpec :=
  { Fields := [⟨"", "int32", "x", .scalar⟩, ⟨"foo", "Bar", "b", .scalar⟩]
    Constants := []
    Text := "int32 x\nfoo/Bar b"
    FullName := "pkg/C"
    Package := "pkg"
    ShortName := "C"
    MD5Sum := "" }

/-- The context left by loading `pkg/B` from `sampleContext`. -/
def sampleLoaded : MsgContext :=
  { sampleContext with msgRegistry := [("pkg/B", sampleB), ("pkg/A", sampleA)] }

/-- The context left by loading `pkg/A` from `sampleContext`. -/
def sampleLoadedA : MsgContext :=
  { sampleContext with msgRegistry := [("pkg/A", sampleA)] }

/-- The context left by overriding `pkg/A` in `sampleLoadedA`. -/
def sampleOverridden : MsgContext :=
  { sampleContext with msgRegistry := [("pkg/A", sampleOverride)] }

/-- The request of the service `pkg/S` with the text
`"int32 a\n---\nint32 b"`, loaded. -/
def sampleRequest : MsgSpec :=
  { Fields := [⟨"", "int32", "a", .scalar⟩]
    Constants := []
    Text := "int32 a\n"
    FullName := "pkg/SRequest"
    Package := "pkg"
    ShortName := "SRequest"
    MD5Sum := "5c9fb1a886e81e3162a5c87bf55c072b" }

/-- The response of the service `pkg/S`, loaded. -/
def sampleResponse : MsgSpec :=
  { Fields := [⟨"", "int32", "b", .scalar⟩]
    Constants := []
    Text := "\nint32 b"
    FullName := "pkg/SResponse"
    Package := "pkg"
    ShortName := "SResponse"
    MD5Sum := "976c440660ac67ad67b35c9dce4f2065" }

/-- The service `pkg/S`, loaded. -/
def sampleSrv : SrvSpec :=
  { Package := "pkg"
    ShortName := "S"
    FullName := "pkg/S"
    Text := "int32 a\n---\nint32 b"
    MD5Sum := "25ba3fa9d5d930574c4d72dc4151cd60"
    Request := sampleRequest
    Response := sampleResponse }

/-- The context left by loading the service `pkg/S` from `emptyContext`. -/
def sampleSrvContext : MsgContext :=
  { emptyContext with
    msgRegistry := [("pkg/SResponse", sampleResponse), ("pkg/SRequest", sampleRequest)] }

/-- The definition `a/T`, registered. -/
def twinA : MsgSpec :=
  { Fields := [⟨"", "int32", "v", .scalar⟩]
    Constants := []
    Text := "int32 v"
    FullName := "a/T"
    Package := "a"
    ShortName := "T"
    MD5Sum := "60938f1c87eccc942a996623a870236c" }

/-- The definition `b/T`, with the text of `a/T`, registered. -/
def twinB : MsgSpec :=
  { twinA with FullName := "b/T", Package := "b" }

/-- A context in which `a/T` and `b/T` are registered. -/
def twinContext : MsgContext :=
  { emptyContext with msgRegistry := [("a/T", twinA), ("b/T", twinB)] }

/-- The definition with the fields `a/T x` and `b/T x`, in this order. -/
def twinFirst : MsgSpec :=
  NewMsgSpec [⟨"a", "T", "x", .scalar⟩, ⟨"b", "T", "x", .scalar⟩] [] "a/T x\nb/T x" "pkg/M" "pkg" "M"

/-- The definition with the fields `b/T x` and `a/T x`, in this order. -/
def twinSecond : MsgSpec :=
  NewMsgSpec [⟨"b", "T", "x", .scalar⟩, ⟨"a", "T", "x", .scalar⟩] [] "b/T x\na/T x" "pkg/M" "pkg" "M"

/-- The definition `pkg/B` of `sampleFiles` with its two fields exchanged. -/
def sampleBSwapped : MsgSpec :=
  { sampleB with Fields := [⟨"", "int32", "n", .scalar⟩, ⟨"pkg", "A", "a", .scalar⟩]
                 Text := "int32 n\npkg/A a" }

/-! ## The canonical text -/

/-- The constants and fields a full name stands for in a context: those of
the registered spec when there is one, else those read from the indexed
file, and nothing when the name is not found, the file is unreadable or a
line is malformed. -/
def resolve (P : Helpers) (fs : FileSystem) (ctx : MsgContext) (fullName : String) :
    Option (List Constant × List Field) :=
  match ctx.msgRegistry.get fullName with
  | some spec => some (spec.Constants, spec.Fields)
  | none =>
    match ctx.msgPathMap.get fullName with
    | none => none
    | some path =>
      match fs path with
      | .error _ => none
      | .ok text =>
        match P.packageResourceName fullName with
        | .error _ => none
        | .ok (packageName, _) =>
          match loadLines P fullName packageName (Split text "\n") 0 [] [] with
          | .error _ => none
          | .ok (fields, constants) => some (constants, fields)

/-- The line `"<type> <name>=<valueText>"` of a constant. -/
def constantLine (c : Constant) : String :=
  c.Type_ ++ " " ++ c.Name ++ "=" ++ c.ValueText

/-- The hexadecimal 128-bit digest of the bytes of a text. -/
def digestOfText (text : String) : String :=
  EncodeToString (md5Sum (toBytes text))

/-- The buffer after each of the lines, followed by a newline, was written
to it. -/
def writeLines : List String → String → String
  | [], buf => buf
  | l :: rest, buf => writeLines rest (buf ++ (l ++ "\n"))

section Canonical

variable (digest : List Constant → List Field → Option String)
variable (env : String → Option (List Constant × List Field))

/-- The line of a field: `"<type> <name>"` when the package is empty, else
`"<digest> <name>"` with the digest of the referenced message; there is no
line when the reference does not resolve or has no digest. -/
def fieldLineWith (f : Field) : Option String :=
  if f.Package = "" then some (f.Type_ ++ " " ++ f.Name)
  else
    match env (f.Package ++ "/" ++ f.Type_) with
    | none => none
    | some (constants, fields) =>
      match digest constants fields with
      | none => none
      | some d => some (d ++ " " ++ f.Name)

/-- The lines of the fields, in order, when each field has one. -/
def fieldLinesWith : List Field → Option (List String)
  | [] => some []
  | f :: rest =>
    match fieldLineWith digest env f, fieldLinesWith rest with
    | some l, some ls => some (l :: ls)
    | _, _ => none

end Canonical

/-- The loop of `ComputeMD5Text` over the fields that remain, read without
the context: a package and type are looked up in `env`, and the digest of
the message they stand for is given by `digest`. -/
def fieldsText (digest : List Constant → List Field → Option String)
    (env : String → Option (List Constant × List Field)) : List Field → String → Option String
  | [], buf => some (Trim buf "\n")
  | f :: rest, buf =>
    if f.Package = "" then
      fieldsText digest env rest (buf ++ (f.Type_ ++ " " ++ f.Name ++ "\n"))
    else
      match env (f.Package ++ "/" ++ f.Type_) with
      | none => some ""
      | some (constants, fields) =>
        match digest constants fields with
        | none => none
        | some submd5 => fieldsText digest env rest (buf ++ (submd5 ++ " " ++ f.Name ++ "\n"))

/-- The text that `ComputeMD5Text` returns for the given constants and fields
when full names stand for what `env` gives; the first argument is the depth
of nested definitions, as for `ComputeMD5Text`. -/
def md5TextOf : Nat → (String → Option (List Constant × List Field)) →
    List Constant → List Field → Option String
  | 0, _, _, _ => none
  | depth + 1, env, constants, fields =>
    fieldsText (fun cs fs => (md5TextOf depth env cs fs).map digestOfText) env fields
      (constantsLoop constants "")

/-- The digest that `ComputeMsgMD5` returns for the given constants and fields
when full names stand for what `env` gives. -/
def digestOf (depth : Nat) (env : String → Option (List Constant × List Field))
    (constants : List Constant) (fields : List Field) : Option String :=
  (md5TextOf depth env constants fields).map digestOfText

/-- The function `md5Text` computes the text `text` of a spec on every context
that resolves names as `env` does, and leaves such a context. -/
def Computes (P : Helpers) (fs : FileSystem) (md5Text : MsgContext → MsgSpec → Call String)
    (text : List Constant → List Field → Option String)
    (env : String → Option (List Constant × List Field)) : Prop :=
  ∀ ctx spec t, resolve P fs ctx = env → text spec.Constants spec.Fields = some t →
    ∃ ctx', md5Text ctx spec = some (.ok t, ctx') ∧ resolve P fs ctx' = env

/-- The function `md5Text` returns nothing but the text `text` of a spec, read
with the names as the context resolves them, and leaves a context that
resolves names as before. -/
def Reflects (P : Helpers) (fs : FileSystem) (md5Text : MsgContext → MsgSpec → Call String)
    (text : (String → Option (List Constant × List Field)) →
      List Constant → List Field → Option String) : Prop :=
  ∀ ctx spec r ctx', md5Text ctx spec = some (r, ctx') →
    ∃ t, text (resolve P fs ctx) spec.Constants spec.Fields = some t ∧ r = .ok t ∧
      resolve P fs ctx' = resolve P fs ctx

/-! ## Basic facts -/

theorem Map.get_erase_ne {α : Type} (m : Map α) (k key : String) (h : k ≠ key) :
    (m.erase k).get key = m.get key := by
  induction m with
  | nil => rfl
  | cons e rest ih =>
    obtain ⟨k1, v1⟩ := e
    by_cases hk : k1 = k
    · subst hk
      simp [Map.erase, Map.get, h, ih]
    · simp [Map.erase, Map.get, hk, ih]

theorem Map.get_set_self {α : Type} (m : Map α) (k : String) (v : α) :
    (m.set k v).get k = some v := by
  simp [Map.set, Map.get]

theorem Map.get_set_other {α : Type} (m : Map α) (k key : String) (v : α) (h : k ≠ key) :
    (m.set k v).get key = m.get key := by
  simp [Map.set, Map.get, h, Map.get_erase_ne]

section Loops

variable (P : Helpers) (fs : FileSystem)
variable (md5Text : MsgContext → MsgSpec → Call String)

/-- The loop of `ComputeMD5Text` has no path that returns an error. -/
theorem fieldsLoop_no_error (fields : List Field) (ctx : MsgContext) (buf : String)
    (err : Error) (ctx' : MsgContext) :
    fieldsLoop P fs md5Text fields ctx buf ≠ some (.error err, ctx') := by
  induction fields generalizing ctx buf with
  | nil => simp [fieldsLoop]
  | cons f rest ih =>
    unfold fieldsLoop
    split
    · exact ih _ _
    · split
      · simp
      · simp
      · split
        · simp
        · simp
        · exact ih _ _

end Loops

/-- No call of `ComputeMD5Text` returns an error. -/
theorem ComputeMD5Text_no_error (P : Helpers) (fs : FileSystem) (depth : Nat)
    (ctx : MsgContext) (spec : MsgSpec) (err : Error) (ctx' : MsgContext) :
    ComputeMD5Text P fs depth ctx spec ≠ some (.error err, ctx') := by
  cases depth with
  | zero => simp [ComputeMD5Text]
  | succ n => exact fieldsLoop_no_error P fs _ _ _ _ _ _

/-- No call of `ComputeMsgMD5` returns an error. -/
theorem ComputeMsgMD5_no_error (P : Helpers) (fs : FileSystem) (depth : Nat)
    (ctx : MsgContext) (spec : MsgSpec) (err : Error) (ctx' : MsgContext) :
    ComputeMsgMD5 P fs depth ctx spec ≠ some (.error err, ctx') := by
  unfold ComputeMsgMD5 ComputeMsgMD5With
  have h := ComputeMD5Text_no_error P fs depth ctx spec
  split
  · simp
  · next e c heq => exact absurd heq (h e c)
  · simp

/-- A failed `LoadMsgFromString` leaves the context as it was. -/
theorem LoadMsgFromString_error (P : Helpers) (fs : FileSystem) (depth : Nat)
    (ctx : MsgContext) (text fullName : String) (err : Error) (ctx' : MsgContext)
    (h : LoadMsgFromString P fs depth ctx text fullName = some (.error err, ctx')) :
    ctx' = ctx := by
  unfold LoadMsgFromString LoadMsgFromStringWith at h
  split at h
  · simp at h; exact h.2.symm
  · split at h
    · simp at h; exact h.2.symm
    · have hno := ComputeMsgMD5_no_error P fs depth ctx
      unfold ComputeMsgMD5 at hno
      dsimp only at h
      split at h
      · simp at h
      · next e c heq => exact absurd heq (hno _ e c)
      · simp at h

/-- A failed `LoadMsgFromFile` leaves the context as it was. -/
theorem LoadMsgFromFile_error (P : Helpers) (fs : FileSystem) (depth : Nat)
    (ctx : MsgContext) (filePath fullName : String) (err : Error) (ctx' : MsgContext)
    (h : LoadMsgFromFile P fs depth ctx filePath fullName = some (.error err, ctx')) :
    ctx' = ctx := by
  unfold LoadMsgFromFile LoadMsgFromFileWith at h
  split at h
  · simp at h; exact h.2.symm
  · exact LoadMsgFromString_error P fs depth ctx _ _ err ctx' h

/-- A failed `LoadMsg` leaves the context as it was. -/
theorem LoadMsg_error (P : Helpers) (fs : FileSystem) (depth : Nat)
    (ctx : MsgContext) (fullName : String) (err : Error) (ctx' : MsgContext)
    (h : LoadMsg P fs depth ctx fullName = some (.error err, ctx')) :
    ctx' = ctx := by
  unfold LoadMsg LoadMsgWith at h
  split at h
  · simp at h
  · split at h
    · split at h
      · simp at h
      · next e c heq =>
        simp at h
        have := LoadMsgFromFile_error P fs depth ctx _ _ e c heq
        rw [← h.2, this]
      · simp at h
    · simp at h; exact h.2.symm

/-- A successful `LoadMsgFromString` leaves the returned spec registered under
the full name. -/
theorem LoadMsgFromString_get (P : Helpers) (fs : FileSystem) (depth : Nat)
    (ctx : MsgContext) (text fullName : String) (s : MsgSpec) (ctx' : MsgContext)
    (h : LoadMsgFromString P fs depth ctx text fullName = some (.ok s, ctx')) :
    ctx'.msgRegistry.get fullName = some s := by
  unfold LoadMsgFromString LoadMsgFromStringWith at h
  split at h
  · simp at h
  · split at h
    · simp at h
    · dsimp only at h
      split at h
      · simp at h
      · simp at h
      · simp at h
        obtain ⟨h1, h2⟩ := h
        rw [← h2, ← h1]
        simp [Register, Map.get_set_self]

/-- A successful `LoadMsg` leaves the returned spec registered under the full
name. -/
theorem LoadMsg_get (P : Helpers) (fs : FileSystem) (depth : Nat)
    (ctx : MsgContext) (fullName : String) (s : MsgSpec) (ctx' : MsgContext)
    (h : LoadMsg P fs depth ctx fullName = some (.ok s, ctx')) :
    ctx'.msgRegistry.get fullName = some s := by
  unfold LoadMsg LoadMsgWith at h
  split at h
  · next spec hget =>
    simp at h
    rw [← h.2, ← h.1]; exact hget
  · split at h
    · split at h
      · simp at h
      · simp at h
      · simp at h
        rw [← h.2, ← h.1]
        simp [Map.get_set_self]
    · simp at h

/-- A registered full name is served from the registry, whatever the helpers,
the files, the depth and the path indexes are. -/
theorem LoadMsg_hit (P : Helpers) (fs : FileSystem) (depth : Nat)
    (ctx : MsgContext) (fullName : String) (s : MsgSpec)
    (h : ctx.msgRegistry.get fullName = some s) :
    LoadMsg P fs depth ctx fullName = some (.ok s, ctx) := by
  simp [LoadMsg, LoadMsgWith, h]

/-- C4: when `LoadMsg(X)` succeeds with the spec `s`, `s` is the entry of `X`
in the registry it leaves, and any further `LoadMsg(X)` on a context with
that registry returns `s` again and leaves the context as it is, whatever
the path indexes, the files, the parsing helpers and the depth are: the
second call is answered from the cache alone. -/
theorem LoadMsg_twice (P : Helpers) (fs : FileSystem) (depth : Nat)
    (ctx : MsgContext) (X : String) (s : MsgSpec) (ctx' : MsgContext)
    (h : LoadMsg P fs depth ctx X = some (.ok s, ctx')) :
    LoadMsg P fs depth ctx' X = some (.ok s, ctx') ∧
    ∀ (P' : Helpers) (fs' : FileSystem) (depth' : Nat) (c : MsgContext),
      c.msgRegistry = ctx'.msgRegistry → LoadMsg P' fs' depth' c X = some (.ok s, c) := by
  have hget := LoadMsg_get P fs depth ctx X s ctx' h
  refine ⟨LoadMsg_hit P fs depth ctx' X s hget, ?_⟩
  intro P' fs' depth' c hc
  exact LoadMsg_hit P' fs' depth' c X s (by rw [hc]; exact hget)

/-- The load of `pkg/B` from the sample files, and its repetition with and
without the path index and the files. -/
theorem LoadMsg_twice_witness :
    LoadMsg specHelpers sampleFiles 2 sampleContext "pkg/B" = some (.ok sampleB, sampleLoaded) ∧
    LoadMsg specHelpers sampleFiles 2 sampleLoaded "pkg/B" = some (.ok sampleB, sampleLoaded) ∧
    LoadMsg specHelpers noFiles 0 { sampleLoaded with msgPathMap := [] } "pkg/B"
      = some (.ok sampleB, { sampleLoaded with msgPathMap := [] }) :=
  have h : LoadMsg specHelpers sampleFiles 2 sampleContext "pkg/B"
      = some (.ok sampleB, sampleLoaded) := by decide!
  ⟨h, (LoadMsg_twice specHelpers sampleFiles 2 sampleContext "pkg/B" sampleB sampleLoaded h).1,
    (LoadMsg_twice specHelpers sampleFiles 2 sampleContext "pkg/B" sampleB sampleLoaded h).2
      specHelpers noFiles 0 _ rfl⟩

/-- C5: when `LoadMsgFromString(text, fullName)` succeeds with the spec `s`,
the registry it leaves maps `fullName` to `s`, whatever the registry and the
message path index held for `fullName` before, and the next
`LoadMsg(fullName)` returns `s` without reading any file. -/
theorem LoadMsgFromString_overrides (P : Helpers) (fs : FileSystem) (depth : Nat)
    (ctx : MsgContext) (text fullName : String) (s : MsgSpec) (ctx' : MsgContext)
    (h : LoadMsgFromString P fs depth ctx text fullName = some (.ok s, ctx')) :
    ctx'.msgRegistry.get fullName = some s ∧
    ∀ (P' : Helpers) (fs' : FileSystem) (depth' : Nat),
      LoadMsg P' fs' depth' ctx' fullName = some (.ok s, ctx') := by
  have hget := LoadMsgFromString_get P fs depth ctx text fullName s ctx' h
  exact ⟨hget, fun P' fs' depth' => LoadMsg_hit P' fs' depth' ctx' fullName s hget⟩

/-- The definition `pkg/A`, first loaded from its file, is overridden by the
text `uint8 y`, which the next `LoadMsg` returns. -/
theorem LoadMsgFromString_overrides_witness :
    LoadMsg specHelpers sampleFiles 1 sampleContext "pkg/A" = some (.ok sampleA, sampleLoadedA) ∧
    LoadMsgFromString specHelpers sampleFiles 1 sampleLoadedA "uint8 y" "pkg/A"
      = some (.ok sampleOverride, sampleOverridden) ∧
    sampleOverridden.msgRegistry.get "pkg/A" = some sampleOverride ∧
    LoadMsg specHelpers sampleFiles 1 sampleOverridden "pkg/A"
      = some (.ok sampleOverride, sampleOverridden) :=
  have h : LoadMsgFromString specHelpers sampleFiles 1 sampleLoadedA "uint8 y" "pkg/A"
      = some (.ok sampleOverride, sampleOverridden) := by decide!
  ⟨by decide!, h,
    (LoadMsgFromString_overrides specHelpers sampleFiles 1 sampleLoadedA "uint8 y" "pkg/A"
      sampleOverride sampleOverridden h).1,
    (LoadMsgFromString_overrides specHelpers sampleFiles 1 sampleLoadedA "uint8 y" "pkg/A"
      sampleOverride sampleOverridden h).2 specHelpers sampleFiles 1⟩

/-- C6: a full name `X` that is neither in the registry nor in the message
path index makes `LoadMsg(X)` fail with the error whose text is
"message definition of \x60X\x60 is not found"; no spec is returned and the
context is left as it was. -/
theorem LoadMsg_not_found (P : Helpers) (fs : FileSystem) (depth : Nat)
    (ctx : MsgContext) (X : String)
    (hreg : ctx.msgRegistry.get X = none) (hidx : ctx.msgPathMap.get X = none) :
    LoadMsg P fs depth ctx X = some (.error (.msgNotFound X), ctx) ∧
    (Error.msgNotFound X).Error = "message definition of \x60" ++ X ++ "\x60 is not found" := by
  refine ⟨?_, rfl⟩
  simp [LoadMsg, LoadMsgWith, hreg, hidx]

/-- The load of `foo/Bar` when only the package `pkg` is indexed. -/
theorem LoadMsg_not_found_witness :
    sampleLoaded.msgRegistry.get "foo/Bar" = none ∧ sampleLoaded.msgPathMap.get "foo/Bar" = none ∧
    LoadMsg specHelpers sampleFiles 3 sampleLoaded "foo/Bar"
      = some (.error (.msgNotFound "foo/Bar"), sampleLoaded) ∧
    (Error.msgNotFound "foo/Bar").Error = "message definition of \x60foo/Bar\x60 is not found" :=
  ⟨by decide, by decide,
    LoadMsg_not_found specHelpers sampleFiles 3 sampleLoaded "foo/Bar" (by decide) (by decide)⟩

/-- C10: whenever `LoadMsgFromString`, `LoadMsgFromFile` or `LoadMsg` returns
an error, the context it leaves, and so the registry, is the one it was
given: no entry was added or replaced, be it for the requested full name or
for a nested definition. -/
theorem failed_load_leaves_registry (P : Helpers) (fs : FileSystem) (depth : Nat)
    (ctx : MsgContext) (text filePath fullName : String) (err : Error) (ctx' : MsgContext)
    (h : LoadMsgFromString P fs depth ctx text fullName = some (.error err, ctx') ∨
      LoadMsgFromFile P fs depth ctx filePath fullName = some (.error err, ctx') ∨
      LoadMsg P fs depth ctx fullName = some (.error err, ctx')) :
    ctx'.msgRegistry = ctx.msgRegistry ∧ ctx' = ctx := by
  have : ctx' = ctx := by
    rcases h with h | h | h
    · exact LoadMsgFromString_error P fs depth ctx text fullName err ctx' h
    · exact LoadMsgFromFile_error P fs depth ctx filePath fullName err ctx' h
    · exact LoadMsg_error P fs depth ctx fullName err ctx' h
  exact ⟨by rw [this], this⟩

/-- The load of `pkg/Bad`, whose second line is malformed, on a context with
a registered definition. -/
theorem failed_load_leaves_registry_witness :
    LoadMsg specHelpers sampleFiles 2 sampleLoadedA "pkg/Bad"
      = some (.error (.syntaxError "pkg/Bad" 1 "1 is not a legal field name"), sampleLoadedA) ∧
    sampleLoadedA.msgRegistry = sampleLoadedA.msgRegistry ∧ sampleLoadedA = sampleLoadedA :=
  have h : LoadMsg specHelpers sampleFiles 2 sampleLoadedA "pkg/Bad"
      = some (.error (.syntaxError "pkg/Bad" 1 "1 is not a legal field name"), sampleLoadedA) := by
    decide!
  ⟨h, failed_load_leaves_registry specHelpers sampleFiles 2 sampleLoadedA "" "" "pkg/Bad" _ _
    (Or.inr (Or.inr h))⟩

/-! ## Syntax errors and unresolved references -/

/-- The loop of `LoadMsgFromString` reports the first line it rejects under
the index that line has among the lines. -/
theorem loadLines_error_index (P : Helpers) (fullName packageName : String)
    (pre : List String) (line : String) (post : List String) (msg : String)
    (hpre : ∀ l ∈ pre, lineError P packageName l = none)
    (hline : lineError P packageName line = some msg)
    (lineno : Nat) (fields : List Field) (constants : List Constant) :
    loadLines P fullName packageName (pre ++ line :: post) lineno fields constants
      = .error (NewSyntaxError fullName (lineno + pre.length) msg) := by
  induction pre generalizing lineno fields constants with
  | nil =>
    simp only [List.nil_append, List.length_nil, Nat.add_zero]
    unfold lineError at hline
    unfold loadLines
    dsimp only at hline ⊢
    split
    · next h0 => simp [h0] at hline
    · next h0 =>
      simp only [h0, if_false] at hline
      split
      · next hc =>
        simp only [hc, if_true] at hline
        split
        · next e he => rw [he] at hline; simp at hline; rw [hline]
        · next c he => rw [he] at hline; simp at hline
      · next hc =>
        simp only [hc] at hline
        split
        · next e he => rw [he] at hline; simp at hline; rw [hline]
        · next c he => rw [he] at hline; simp at hline
  | cons l rest ih =>
    have hl : lineError P packageName l = none := hpre l (List.mem_cons_self _ _)
    have hrest : ∀ l' ∈ rest, lineError P packageName l' = none :=
      fun l' hl' => hpre l' (List.mem_cons_of_mem _ hl')
    have hlen : lineno + (l :: rest).length = lineno + 1 + rest.length := by
      simp [List.length_cons]; omega
    rw [hlen]
    unfold lineError at hl
    simp only [List.cons_append]
    unfold loadLines
    dsimp only at hl ⊢
    split
    · exact ih hrest _ _ _
    · next h0 =>
      simp only [h0, if_false] at hl
      split
      · next hc =>
        simp only [hc, if_true] at hl
        split
        · next e he => rw [he] at hl; simp at hl
        · exact ih hrest _ _ _
      · next hc =>
        simp only [hc] at hl
        split
        · next e he => rw [he] at hl; simp at hl
        · exact ih hrest _ _ _

/-- C7, as the code has it: when the first line that the loop rejects comes
after the lines `pre`, `LoadMsgFromString` fails with the syntax error that
carries the full name and the number of lines before it, `pre.length`: the
n-th line counting from 1 is reported as line n - 1. -/
theorem LoadMsgFromString_syntax_error_line (P : Helpers) (fs : FileSystem) (depth : Nat)
    (ctx : MsgContext) (text fullName packageName shortName : String)
    (pre : List String) (line : String) (post : List String) (msg : String)
    (hname : P.packageResourceName fullName = .ok (packageName, shortName))
    (hsplit : Split text "\n" = pre ++ line :: post)
    (hpre : ∀ l ∈ pre, lineError P packageName l = none)
    (hline : lineError P packageName line = some msg) :
    LoadMsgFromString P fs depth ctx text fullName
      = some (.error (.syntaxError fullName pre.length msg), ctx) := by
  have h := loadLines_error_index P fullName packageName pre line post msg hpre hline 0 [] []
  simp only [Nat.zero_add] at h
  simp [LoadMsgFromString, LoadMsgFromStringWith, hname, hsplit, h, NewSyntaxError]

/-- The text `"int32 x\nfoo 1"`, whose second line is rejected, is reported
with the line 1. -/
theorem LoadMsgFromString_syntax_error_line_witness :
    LoadMsgFromString specHelpers noFiles 1 emptyContext "int32 x\nfoo 1" "pkg/A"
      = some (.error (.syntaxError "pkg/A" 1 "1 is not a legal field name"), emptyContext) ∧
    (Error.syntaxError "pkg/A" 1 "1 is not a legal field name").Error
      = "pkg/A:1: 1 is not a legal field name" :=
  ⟨LoadMsgFromString_syntax_error_line specHelpers noFiles 1 emptyContext "int32 x\nfoo 1"
      "pkg/A" "pkg" "A" ["int32 x"] "foo 1" [] "1 is not a legal field name"
      (by decide) (by decide) (by decide) (by decide), by decide⟩

section Loops

variable (P : Helpers) (fs : FileSystem)
variable (md5Text : MsgContext → MsgSpec → Call String)

/-- Fields without package only extend the buffer. -/
theorem fieldsLoop_builtin_prefix (pre rest : List Field) (ctx : MsgContext) (buf : String)
    (hpre : ∀ f ∈ pre, f.Package = "") :
    ∃ buf', fieldsLoop P fs md5Text (pre ++ rest) ctx buf
      = fieldsLoop P fs md5Text rest ctx buf' := by
  induction pre generalizing buf with
  | nil => exact ⟨buf, rfl⟩
  | cons f pre ih =>
    have hf : f.Package = "" := hpre f (List.mem_cons_self _ _)
    obtain ⟨buf', h⟩ := ih (buf ++ (f.Type_ ++ " " ++ f.Name ++ "\n"))
      (fun g hg => hpre g (List.mem_cons_of_mem _ hg))
    refine ⟨buf', ?_⟩
    rw [← h]
    simp [fieldsLoop, hf]

end Loops

/-- The digest of the empty text. -/
theorem md5_empty_text :
    EncodeToString (md5New.Write (toBytes "")).Sum = "d41d8cd98f00b204e9800998ecf8427e" := by
  decide!

/-- C1, as the code has it: when the first field with a package refers to a
message that `LoadMsg` fails to load, `ComputeMD5Text` returns the empty
text and no error, and `ComputeMsgMD5` returns the digest of the empty
text and no error. -/
theorem ComputeMD5Text_swallows_failure (P : Helpers) (fs : FileSystem) (depth : Nat)
    (ctx : MsgContext) (spec : MsgSpec) (pre : List Field) (f : Field) (post : List Field)
    (err : Error) (ctx1 : MsgContext)
    (hfields : spec.Fields = pre ++ f :: post)
    (hpre : ∀ g ∈ pre, g.Package = "")
    (hf : f.Package ≠ "")
    (hload : LoadMsg P fs depth ctx (f.Package ++ "/" ++ f.Type_) = some (.error err, ctx1)) :
    ComputeMD5Text P fs (depth + 1) ctx spec = some (.ok "", ctx) ∧
    ComputeMsgMD5 P fs (depth + 1) ctx spec
      = some (.ok "d41d8cd98f00b204e9800998ecf8427e", ctx) := by
  have hctx : ctx1 = ctx := LoadMsg_error P fs depth ctx _ err ctx1 hload
  rw [hctx] at hload
  have htext : ComputeMD5Text P fs (depth + 1) ctx spec = some (.ok "", ctx) := by
    unfold ComputeMD5Text
    rw [hfields]
    obtain ⟨buf', h⟩ := fieldsLoop_builtin_prefix P fs (ComputeMD5Text P fs depth) pre
      (f :: post) ctx (constantsLoop spec.Constants "") hpre
    rw [h]
    unfold LoadMsg at hload
    simp [fieldsLoop, hf, hload]
  refine ⟨htext, ?_⟩
  unfold ComputeMsgMD5 ComputeMsgMD5With
  rw [htext]
  simp only [md5_empty_text]

/-- The definition with the fields `int32 x` and `foo/Bar b`, when `foo/Bar`
is not found. -/
theorem ComputeMD5Text_swallows_failure_witness :
    LoadMsg specHelpers sampleFiles 0 sampleContext "foo/Bar"
      = some (.error (.msgNotFound "foo/Bar"), sampleContext) ∧
    ComputeMD5Text specHelpers sampleFiles 1 sampleContext sampleDangling
      = some (.ok "", sampleContext) ∧
    ComputeMsgMD5 specHelpers sampleFiles 1 sampleContext sampleDangling
      = some (.ok "d41d8cd98f00b204e9800998ecf8427e", sampleContext) :=
  have h : LoadMsg specHelpers sampleFiles 0 sampleContext "foo/Bar"
      = some (.error (.msgNotFound "foo/Bar"), sampleContext) := by decide
  ⟨h, ComputeMD5Text_swallows_failure specHelpers sampleFiles 0 sampleContext sampleDangling
    [⟨"", "int32", "x", .scalar⟩] ⟨"foo", "Bar", "b", .scalar⟩ [] _ _ rfl (by decide) (by decide) h⟩

/-- The load of a definition with an unresolved reference succeeds and
registers the digest of the empty text. -/
theorem LoadMsgFromString_dangling :
    LoadMsgFromString specHelpers sampleFiles 1 sampleContext "int32 x\nfoo/Bar b" "pkg/C"
      = some (.ok { sampleDangling with MD5Sum := "d41d8cd98f00b204e9800998ecf8427e" },
          Register sampleContext "pkg/C"
            { sampleDangling with MD5Sum := "d41d8cd98f00b204e9800998ecf8427e" }) := by
  decide!

/-! ### The number of separators -/

section Counting

variable (sep : List Char)

/-- The split has one section more than there are separators. -/
theorem splitAux_length (n : Nat) (s acc : List Char) :
    (splitAux sep n s acc).length = countAux sep n s + 1 := by
  induction n generalizing s acc with
  | zero => simp [splitAux, countAux]
  | succ n ih =>
    cases s with
    | nil => simp [splitAux, countAux]
    | cons c cs =>
      unfold splitAux countAux
      split
      · simp only [List.length_cons, ih]; omega
      · exact ih _ _

/-- The count does not depend on the bound once that one exceeds the length
of the text. -/
theorem countAux_bound (hsep : sep ≠ []) (n m : Nat) (s : List Char)
    (hn : s.length < n) (hm : s.length < m) : countAux sep n s = countAux sep m s := by
  induction n generalizing m s with
  | zero => omega
  | succ n ih =>
    cases m with
    | zero => omega
    | succ m =>
      cases s with
      | nil => simp [countAux]
      | cons c cs =>
        have hL : 0 < sep.length := List.length_pos.mpr hsep
        simp only [List.length_cons] at hn hm
        unfold countAux
        split
        · have hd : (List.drop sep.length (c :: cs)).length ≤ cs.length := by
            simp only [List.length_drop, List.length_cons]; omega
          rw [ih m _ (by omega) (by omega)]
        · exact ih m cs (by omega) (by omega)

theorem countChars_nil (hsep : sep ≠ []) : countChars [] sep = 0 := by
  simp [countChars, hsep, countAux]

theorem countChars_cons_match (hsep : sep ≠ []) (c : Char) (cs : List Char)
    (hp : sep.isPrefixOf (c :: cs) = true) :
    countChars (c :: cs) sep = 1 + countChars ((c :: cs).drop sep.length) sep := by
  have hL : 0 < sep.length := List.length_pos.mpr hsep
  simp only [countChars, hsep, if_false, List.length_cons]
  rw [countAux, if_pos hp]
  congr 1
  apply countAux_bound sep hsep
  · simp only [List.length_drop, List.length_cons]; omega
  · omega

theorem countChars_cons_other (hsep : sep ≠ []) (c : Char) (cs : List Char)
    (hp : ¬ sep.isPrefixOf (c :: cs) = true) :
    countChars (c :: cs) sep = countChars cs sep := by
  simp only [countChars, hsep, if_false, List.length_cons]
  rw [countAux, if_neg hp]

/-- Dropping characters from the front does not add a separator, when a
character put in front of a shorter text does not remove one. -/
theorem countChars_drop_le (m : Nat)
    (hmono : ∀ s x, s.length < m → countChars s sep ≤ countChars (x :: s) sep)
    (j : Nat) (t : List Char) (ht : t.length ≤ m) :
    countChars (t.drop j) sep ≤ countChars t sep := by
  induction j generalizing t with
  | zero => simp
  | succ j ih =>
    cases t with
    | nil => simp
    | cons y t' =>
      simp only [List.length_cons] at ht
      simp only [List.drop_succ_cons]
      exact Nat.le_trans (ih t' (by omega)) (hmono t' y (by omega))

/-- Dropping no more characters than the separator has removes at most one
separator. -/
theorem countChars_le_drop (hsep : sep ≠ []) (m : Nat)
    (hmono : ∀ s x, s.length < m → countChars s sep ≤ countChars (x :: s) sep)
    (t : List Char) (k : Nat) (ht : t.length ≤ m) (hk : k ≤ sep.length) :
    countChars t sep ≤ 1 + countChars (t.drop k) sep := by
  induction t generalizing k with
  | nil => simp [countChars_nil sep hsep]
  | cons y t' ih =>
    by_cases hp : sep.isPrefixOf (y :: t') = true
    · rw [countChars_cons_match sep hsep y t' hp]
      have hd : List.drop sep.length (y :: t') = List.drop (sep.length - k) (List.drop k (y :: t')) := by
        rw [List.drop_drop]
        congr 1
        omega
      rw [hd]
      have hlen : (List.drop k (y :: t')).length ≤ m := by
        simp only [List.length_drop]; omega
      have := countChars_drop_le sep m hmono (sep.length - k) _ hlen
      omega
    · rw [countChars_cons_other sep hsep y t' hp]
      cases k with
      | zero =>
        simp only [List.drop_zero]
        rw [countChars_cons_other sep hsep y t' hp]
        omega
      | succ k' =>
        simp only [List.drop_succ_cons]
        simp only [List.length_cons] at ht
        exact ih k' (by omega) (by omega)

/-- A character put in front of a text does not remove a separator. -/
theorem countChars_cons_le (hsep : sep ≠ []) (s : List Char) (x : Char) :
    countChars s sep ≤ countChars (x :: s) sep := by
  have key : ∀ m, ∀ s x, s.length < m → countChars s sep ≤ countChars (x :: s) sep := by
    intro m
    induction m with
    | zero => intro s x h; omega
    | succ m ih =>
      intro s x hs
      have hL : 0 < sep.length := List.length_pos.mpr hsep
      by_cases hp : sep.isPrefixOf (x :: s) = true
      · rw [countChars_cons_match sep hsep x s hp]
        have hd : List.drop sep.length (x :: s) = List.drop (sep.length - 1) s := by
          obtain ⟨L, hLe⟩ : ∃ L, sep.length = L + 1 := ⟨sep.length - 1, by omega⟩
          rw [hLe]
          simp
        rw [hd]
        exact countChars_le_drop sep hsep m ih s (sep.length - 1) (by omega) (by omega)
      · rw [countChars_cons_other sep hsep x s hp]
  exact key (s.length + 1) s x (Nat.lt_succ_self _)

theorem countChars_append_le (hsep : sep ≠ []) (a s : List Char) :
    countChars s sep ≤ countChars (a ++ s) sep := by
  induction a with
  | nil => simp
  | cons x a ih => exact Nat.le_trans ih (countChars_cons_le sep hsep (a ++ s) x)

/-- A separator in a text counts, with the separators after it. -/
theorem countChars_separator (hsep : sep ≠ []) (a r : List Char) :
    1 + countChars r sep ≤ countChars (a ++ (sep ++ r)) sep := by
  have h0 : countChars (sep ++ r) sep = 1 + countChars r sep := by
    cases hs : sep with
    | nil => exact absurd hs hsep
    | cons d ds =>
      have hp : (d :: ds).isPrefixOf (d :: (ds ++ r)) = true :=
        List.isPrefixOf_iff_prefix.mpr (List.prefix_append (d :: ds) r)
      rw [← hs] at hp ⊢
      have hform : sep ++ r = d :: (ds ++ r) := by rw [hs]; rfl
      rw [hform, countChars_cons_match sep hsep d (ds ++ r) hp, ← hform]
      simp
  rw [← h0]
  exact countChars_append_le sep hsep a (sep ++ r)

/-- Two separators that do not overlap make the count at least two. -/
theorem countChars_two (hsep : sep ≠ []) (a b c : List Char) :
    2 ≤ countChars (a ++ (sep ++ (b ++ (sep ++ c)))) sep := by
  have h1 := countChars_separator sep hsep a (b ++ (sep ++ c))
  have h2 := countChars_separator sep hsep b c
  omega

end Counting

section OneSeparator

variable (sep : List Char)

theorem containsChars_cons_false (c : Char) (cs : List Char)
    (h : containsChars sep (c :: cs) = false) :
    sep.isPrefixOf (c :: cs) = false ∧ containsChars sep cs = false := by
  simpa [containsChars] using h

/-- A text without separator is its only section. -/
theorem splitAux_none (n : Nat) (s acc : List Char) (h : containsChars sep s = false) :
    splitAux sep n s acc = [acc.reverse ++ s] := by
  induction n generalizing s acc with
  | zero => rfl
  | succ n ih =>
    cases s with
    | nil => simp [splitAux]
    | cons c cs =>
      obtain ⟨hp, hc⟩ := containsChars_cons_false sep c cs h
      unfold splitAux
      rw [if_neg (by simp [hp]), ih cs (c :: acc) hc]
      simp

theorem isPrefixOf_append_of_le (u v : List Char) (h : sep.length ≤ u.length) :
    sep.isPrefixOf (u ++ v) = sep.isPrefixOf u := by
  apply Bool.eq_iff_iff.mpr
  rw [List.isPrefixOf_iff_prefix, List.isPrefixOf_iff_prefix]
  constructor
  · intro hp
    exact List.prefix_of_prefix_length_le hp (List.prefix_append u v) h
  · intro hp
    exact List.IsPrefix.trans hp (List.prefix_append u v)

/-- A text with one separator, none starting before it and none after it, has
the two sections around it. -/
theorem splitAux_one (hsep : sep ≠ []) (a b : List Char) (n : Nat) (acc : List Char)
    (ha : containsChars sep (a ++ sep.dropLast) = false)
    (hb : containsChars sep b = false)
    (hn : (a ++ (sep ++ b)).length < n) :
    splitAux sep n (a ++ (sep ++ b)) acc = [acc.reverse ++ a, b] := by
  induction a generalizing n acc with
  | nil =>
    cases n with
    | zero => omega
    | succ n =>
      cases hs : sep with
      | nil => exact absurd hs hsep
      | cons d ds =>
        have hp : (d :: ds).isPrefixOf (d :: (ds ++ b)) = true :=
          List.isPrefixOf_iff_prefix.mpr (List.prefix_append (d :: ds) b)
        rw [hs] at hb
        simp only [List.nil_append, List.cons_append, List.append_nil]
        unfold splitAux
        rw [if_pos hp]
        have hd : List.drop (d :: ds).length (d :: (ds ++ b)) = b := by
          simp
        rw [hd, splitAux_none (d :: ds) n b [] hb]
        simp
  | cons x a ih =>
    cases n with
    | zero => omega
    | succ n =>
      simp only [List.cons_append] at ha hn ⊢
      obtain ⟨hp, hc⟩ := containsChars_cons_false sep x (a ++ sep.dropLast) ha
      have hL : 0 < sep.length := List.length_pos.mpr hsep
      have hform : x :: (a ++ (sep ++ b))
          = (x :: (a ++ sep.dropLast)) ++ ([sep.getLast hsep] ++ b) := by
        conv_lhs => rw [← List.dropLast_append_getLast hsep]
        simp
      have hp' : sep.isPrefixOf (x :: (a ++ (sep ++ b))) = false := by
        rw [hform, isPrefixOf_append_of_le sep _ _ (by
          simp only [List.length_cons, List.length_append, List.length_dropLast]; omega)]
        exact hp
      unfold splitAux
      rw [if_neg (by simp [hp'])]
      simp only [List.length_cons] at hn
      rw [ih n (x :: acc) hc (by omega)]
      simp

end OneSeparator

/-- The split of a text has one section more than the text has separators. -/
theorem Split_length_Count (text sep : String) (hsep : sep.data ≠ []) :
    (Split text sep).length = Count text sep + 1 := by
  unfold Split splitChars Count countChars
  rw [if_neg hsep, if_neg hsep, List.length_map]
  exact splitAux_length sep.data _ _ _

/-- A text with two separators that do not overlap has three sections or
more. -/
theorem Split_two_separators (a b c sep : String) (hsep : sep.data ≠ []) :
    3 ≤ (Split (a ++ sep ++ b ++ sep ++ c) sep).length := by
  rw [Split_length_Count _ _ hsep]
  have h := countChars_two sep.data hsep a.data b.data c.data
  have hd : (a ++ sep ++ b ++ sep ++ c).data
      = a.data ++ (sep.data ++ (b.data ++ (sep.data ++ c.data))) := by
    simp [String.data_append]
  unfold Count
  rw [hd]
  omega

/-- A text with one marker `---`, none starting before it and none after it,
has the two sections around the marker. -/
theorem Split_one_marker (a b : String) (ha : Contains (a ++ "--") "---" = false)
    (hb : Contains b "---" = false) :
    Split (a ++ "---" ++ b) "---" = [a, b] := by
  have hd : ("---" : String).data = ['-', '-', '-'] := rfl
  have hd2 : ("--" : String).data = ['-', '-'] := rfl
  unfold Contains at ha hb
  rw [String.data_append, hd, hd2] at ha
  rw [hd] at hb
  unfold Split splitChars
  rw [hd, if_neg (by simp)]
  have hform : (a ++ "---" ++ b).data = a.data ++ (['-', '-', '-'] ++ b.data) := by
    simp [String.data_append, hd]
  rw [hform, splitAux_one ['-', '-', '-'] (by simp) a.data b.data _ [] ha hb (Nat.lt_succ_self _)]
  simp

/-! ## Services -/

theorem toBytes_append (a b : String) : toBytes (a ++ b) = toBytes a ++ toBytes b := by
  simp [toBytes, String.data_append, List.flatMap_append]

theorem EncodeToString_length (bs : List Nat) : (EncodeToString bs).length = 2 * bs.length := by
  induction bs with
  | nil => rfl
  | cons b rest ih =>
    simp only [EncodeToString, String.length, List.flatMap_cons, List.length_append,
      List.length_cons, List.length_nil] at ih ⊢
    omega

theorem md5Sum_length (msg : List Nat) : (md5Sum msg).length = 16 := by
  simp [md5Sum, le32]

/-- A hexadecimal MD5 digest has 32 characters. -/
theorem digest_length (msg : List Nat) : (EncodeToString (md5Sum msg)).length = 32 := by
  rw [EncodeToString_length, md5Sum_length]

/-- The result of `ComputeSrvMD5` from the texts that its two calls of
`ComputeMD5Text` return. -/
theorem ComputeSrvMD5_of_texts (P : Helpers) (fs : FileSystem) (depth : Nat)
    (ctx : MsgContext) (spec : SrvSpec) (reqText resText : String) (ctx1 ctx2 : MsgContext)
    (hreq : ComputeMD5Text P fs depth ctx spec.Request = some (.ok reqText, ctx1))
    (hres : ComputeMD5Text P fs depth ctx1 spec.Response = some (.ok resText, ctx2)) :
    ComputeSrvMD5 P fs depth ctx spec
      = some (.ok (EncodeToString (md5Sum (toBytes (reqText ++ resText)))), ctx2) := by
  simp [ComputeSrvMD5, hreq, hres, Hash.Write, Hash.Sum, md5New, toBytes_append]

/-- The digest of two texts written one after the other is not their two
digests one after the other. -/
theorem digest_ne_digests (reqText resText : String) :
    EncodeToString (md5Sum (toBytes (reqText ++ resText)))
      ≠ EncodeToString (md5Sum (toBytes reqText)) ++ EncodeToString (md5Sum (toBytes resText)) := by
  intro h
  have hlen := congrArg String.length h
  rw [String.length_append, digest_length, digest_length, digest_length] at hlen
  omega

/-- The service digest of `pkg/S`, and the digests of its two messages. -/
theorem sampleSrv_digest :
    ComputeSrvMD5 specHelpers noFiles 1 sampleSrvContext sampleSrv
      = some (.ok "25ba3fa9d5d930574c4d72dc4151cd60", sampleSrvContext) ∧
    ComputeMsgMD5 specHelpers noFiles 1 sampleSrvContext sampleSrv.Request
      = some (.ok "5c9fb1a886e81e3162a5c87bf55c072b", sampleSrvContext) ∧
    ComputeMsgMD5 specHelpers noFiles 1 sampleSrvContext sampleSrv.Response
      = some (.ok "976c440660ac67ad67b35c9dce4f2065", sampleSrvContext) := by
  decide!

/-! ### The separator of a service text -/

theorem splitAux_ne_nil (sep : List Char) (n : Nat) (s acc : List Char) :
    splitAux sep n s acc ≠ [] := by
  induction n generalizing s acc with
  | zero => simp [splitAux]
  | succ n ih =>
    cases s with
    | nil => simp [splitAux]
    | cons c cs =>
      unfold splitAux
      split
      · simp
      · exact ih _ _

theorem joinChars_cons (sep a : List Char) (l : List (List Char)) (h : l ≠ []) :
    joinChars sep (a :: l) = a ++ sep ++ joinChars sep l := by
  cases l with
  | nil => exact absurd rfl h
  | cons b rest => rfl

/-- Joining the pieces of a split with the separator gives the text back. -/
theorem joinChars_splitAux (sep : List Char) (n : Nat) (s acc : List Char) :
    joinChars sep (splitAux sep n s acc) = acc.reverse ++ s := by
  induction n generalizing s acc with
  | zero => simp [splitAux, joinChars]
  | succ n ih =>
    cases s with
    | nil => simp [splitAux, joinChars]
    | cons c cs =>
      unfold splitAux
      split
      · next hp =>
        rw [joinChars_cons _ _ _ (splitAux_ne_nil _ _ _ _), ih]
        have hpre : sep <+: c :: cs := List.isPrefixOf_iff_prefix.mp hp
        have := List.prefix_iff_eq_append.mp hpre
        simp only [List.reverse_nil, List.nil_append, List.append_assoc]
        rw [this]
      · rw [ih]
        simp

/-- Without an occurrence of the separator the split has one piece, and with
one it has more. -/
theorem splitAux_length_one (sep : List Char) (hsep : sep ≠ []) (n : Nat) (s acc : List Char)
    (hn : s.length < n) :
    (splitAux sep n s acc).length = 1 ↔ containsChars sep s = false := by
  induction n generalizing s acc with
  | zero => omega
  | succ n ih =>
    cases s with
    | nil =>
      cases sep with
      | nil => exact absurd rfl hsep
      | cons d ds => simp [splitAux, containsChars, List.isPrefixOf]
    | cons c cs =>
      unfold splitAux containsChars
      split
      · next hp =>
        have hne := splitAux_ne_nil sep n (List.drop sep.length (c :: cs)) []
        have : 0 < (splitAux sep n (List.drop sep.length (c :: cs)) []).length :=
          List.length_pos.mpr hne
        simp only [List.length_cons, hp, Bool.true_or]
        constructor
        · intro h; omega
        · intro h; cases h
      · next hp =>
        have hlen : cs.length < n := by simp only [List.length_cons] at hn; omega
        rw [ih cs (c :: acc) hlen]
        simp [hp]

theorem Split_two_parts (text sep reqText resText : String)
    (hsep : sep.data ≠ []) (h : Split text sep = [reqText, resText]) :
    text = reqText ++ sep ++ resText := by
  unfold Split splitChars at h
  rw [if_neg hsep] at h
  have hj := joinChars_splitAux sep.data (text.data.length + 1) text.data []
  generalize splitAux sep.data (text.data.length + 1) text.data [] = l at h hj
  match l, h with
  | [a, b], h =>
    simp only [List.map_cons, List.map_nil, List.cons.injEq, and_true] at h
    obtain ⟨ha, hb⟩ := h
    apply String.ext
    subst ha hb
    simp only [joinChars, List.reverse_nil, List.nil_append] at hj
    simp [String.data_append, hj]

theorem Split_no_separator (text sep : String) (hsep : sep.data ≠ []) :
    (Split text sep).length = 1 ↔ Contains text sep = false := by
  unfold Split splitChars Contains
  rw [if_neg hsep, List.length_map]
  exact splitAux_length_one sep.data hsep _ _ _ (Nat.lt_succ_self _)

/-- The loop of `LoadMsgFromString` fails with syntax errors only. -/
theorem loadLines_error_kind (P : Helpers) (fullName packageName : String)
    (lines : List String) (lineno : Nat) (fields : List Field) (constants : List Constant)
    (err : Error)
    (h : loadLines P fullName packageName lines lineno fields constants = .error err) :
    ∃ line msg, err = .syntaxError fullName line msg := by
  induction lines generalizing lineno fields constants with
  | nil => simp [loadLines] at h
  | cons l rest ih =>
    unfold loadLines at h
    dsimp only at h
    split at h
    · exact ih _ _ _ h
    · split at h
      · split at h
        · simp only [Result.error.injEq] at h
          exact ⟨_, _, h.symm⟩
        · exact ih _ _ _ h
      · split at h
        · simp only [Result.error.injEq] at h
          exact ⟨_, _, h.symm⟩
        · exact ih _ _ _ h

/-- No call of `LoadMsgFromString` fails with the error of a missing separator. -/
theorem LoadMsgFromString_not_missingSeparator (P : Helpers) (fs : FileSystem) (depth : Nat)
    (ctx : MsgContext) (text fullName : String) (ctx' : MsgContext) :
    LoadMsgFromString P fs depth ctx text fullName ≠ some (.error .missingSeparator, ctx') := by
  intro h
  unfold LoadMsgFromString LoadMsgFromStringWith at h
  split at h
  · simp at h
  · split at h
    · next e he =>
      obtain ⟨line, msg, hk⟩ := loadLines_error_kind P _ _ _ _ _ _ e he
      subst hk
      simp at h
    · have hno := ComputeMsgMD5_no_error P fs depth ctx
      unfold ComputeMsgMD5 at hno
      dsimp only at h
      split at h
      · simp at h
      · next e c heq => exact absurd heq (hno _ e c)
      · simp at h

/-- No call of `ComputeSrvMD5` returns an error. -/
theorem ComputeSrvMD5_no_error (P : Helpers) (fs : FileSystem) (depth : Nat)
    (ctx : MsgContext) (spec : SrvSpec) (err : Error) (ctx' : MsgContext) :
    ComputeSrvMD5 P fs depth ctx spec ≠ some (.error err, ctx') := by
  intro h
  unfold ComputeSrvMD5 at h
  split at h
  · simp at h
  · next e c heq => exact ComputeMD5Text_no_error P fs depth ctx _ e c heq
  · split at h
    · simp at h
    · next e c heq => exact ComputeMD5Text_no_error P fs depth _ _ e c heq
    · simp at h

/-- With two sections `LoadSrvFromString` is the two loads followed by the
service digest. -/
theorem LoadSrvFromString_two (P : Helpers) (fs : FileSystem) (depth : Nat)
    (ctx : MsgContext) (text fullName packageName shortName reqText resText : String)
    (hname : P.packageResourceName fullName = .ok (packageName, shortName))
    (hsplit : Split text "---" = [reqText, resText]) :
    LoadSrvFromString P fs depth ctx text fullName =
      match LoadMsgFromString P fs depth ctx reqText (fullName ++ "Request") with
      | none => none
      | some (.error err, ctx1) => some (.error err, ctx1)
      | some (.ok reqSpec, ctx1) =>
        match LoadMsgFromString P fs depth ctx1 resText (fullName ++ "Response") with
        | none => none
        | some (.error err, ctx2) => some (.error err, ctx2)
        | some (.ok resSpec, ctx2) =>
          match ComputeSrvMD5 P fs depth ctx2
            ⟨packageName, shortName, fullName, text, "", reqSpec, resSpec⟩ with
          | none => none
          | some (.error err, ctx3) => some (.error err, ctx3)
          | some (.ok md5sum, ctx3) =>
            some (.ok ⟨packageName, shortName, fullName, text, md5sum, reqSpec, resSpec⟩, ctx3) := by
  unfold LoadSrvFromString
  simp only [hname, hsplit, List.length_cons, List.length_nil, ne_eq, not_true_eq_false,
    if_false, List.getD_cons_zero, List.getD_cons_succ]

/-- C8: for a full name that `packageResourceName` accepts, `LoadSrvFromString`
fails with the error of a missing separator exactly when `Split(text, "---")`
does not have two sections, that is exactly when the number of markers
`---` in the text, counted as `strings.Count` does, is not one: the split
has one section more than there are markers.  A text without `---` is
rejected, and so is every text with two markers that do not overlap; the
context is then left as it was.  A text `a`, the marker, `b`, in which no
marker starts before the one written and none lies in `b`, has the two
sections `a` and `b`.  When the split has the two sections `reqText` and
`resText`, the text is `reqText`, the marker, `resText`; the first is
loaded under `fullName + "Request"` and the second, on the context the
first load leaves, under `fullName + "Response"`: a failure of either load
is the failure returned, and a service that is returned holds the specs the
two loads returned. -/
theorem LoadSrvFromString_separator (P : Helpers) (fs : FileSystem) (depth : Nat)
    (ctx : MsgContext) (text fullName packageName shortName : String)
    (hname : P.packageResourceName fullName = .ok (packageName, shortName)) :
    ((∃ ctx', LoadSrvFromString P fs depth ctx text fullName
        = some (.error .missingSeparator, ctx')) ↔ (Split text "---").length ≠ 2) ∧
    ((Split text "---").length ≠ 2 →
      LoadSrvFromString P fs depth ctx text fullName = some (.error .missingSeparator, ctx)) ∧
    (Contains text "---" = false → (Split text "---").length ≠ 2) ∧
    (∀ reqText resText, Split text "---" = [reqText, resText] →
      text = reqText ++ "---" ++ resText ∧
      (∀ err c1, LoadMsgFromString P fs depth ctx reqText (fullName ++ "Request")
          = some (.error err, c1) →
        LoadSrvFromString P fs depth ctx text fullName = some (.error err, c1)) ∧
      (∀ reqSpec c1 err c2, LoadMsgFromString P fs depth ctx reqText (fullName ++ "Request")
          = some (.ok reqSpec, c1) →
        LoadMsgFromString P fs depth c1 resText (fullName ++ "Response")
          = some (.error err, c2) →
        LoadSrvFromString P fs depth ctx text fullName = some (.error err, c2)) ∧
      (∀ srv ctx', LoadSrvFromString P fs depth ctx text fullName = some (.ok srv, ctx') →
        srv.FullName = fullName ∧
        ∃ c1 c2,
          LoadMsgFromString P fs depth ctx reqText (fullName ++ "Request")
            = some (.ok srv.Request, c1) ∧
          LoadMsgFromString P fs depth c1 resText (fullName ++ "Response")
            = some (.ok srv.Response, c2))) ∧
    (Split text "---").length = Count text "---" + 1 ∧
    ((∃ ctx', LoadSrvFromString P fs depth ctx text fullName
        = some (.error .missingSeparator, ctx')) ↔ Count text "---" ≠ 1) ∧
    (Contains text "---" = false →
      LoadSrvFromString P fs depth ctx text fullName = some (.error .missingSeparator, ctx)) ∧
    (∀ a b c, text = a ++ "---" ++ b ++ "---" ++ c →
      LoadSrvFromString P fs depth ctx text fullName = some (.error .missingSeparator, ctx)) ∧
    (∀ a b, text = a ++ "---" ++ b → Contains (a ++ "--") "---" = false →
      Contains b "---" = false →
      Split text "---" = [a, b] ∧ Count text "---" = 1 ∧
      ∀ ctx', LoadSrvFromString P fs depth ctx text fullName
        ≠ some (.error .missingSeparator, ctx')) := by
  have hfail : (Split text "---").length ≠ 2 →
      LoadSrvFromString P fs depth ctx text fullName = some (.error .missingSeparator, ctx) := by
    intro hlen
    simp [LoadSrvFromString, hname, hlen]
  have htwo : (Split text "---").length = 2 → ∀ ctx',
      LoadSrvFromString P fs depth ctx text fullName ≠ some (.error .missingSeparator, ctx') := by
    intro hlen ctx' h
    match hs : Split text "---", hlen with
    | [reqText, resText], _ =>
      rw [LoadSrvFromString_two P fs depth ctx text fullName packageName shortName reqText
        resText hname hs] at h
      split at h
      · simp at h
      · next e c heq =>
        simp only [Option.some.injEq, Prod.mk.injEq, Result.error.injEq] at h
        rw [h.1, h.2] at heq
        exact LoadMsgFromString_not_missingSeparator P fs depth ctx _ _ _ heq
      · split at h
        · simp at h
        · next e c heq =>
          simp only [Option.some.injEq, Prod.mk.injEq, Result.error.injEq] at h
          rw [h.1, h.2] at heq
          exact LoadMsgFromString_not_missingSeparator P fs depth _ _ _ _ heq
        · split at h
          · simp at h
          · next e c heq => exact ComputeSrvMD5_no_error P fs depth _ _ e c heq
          · simp at h
  have hcount := Split_length_Count text "---" (by decide)
  have hnone : Contains text "---" = false → (Split text "---").length ≠ 2 := by
    intro hc hlen
    have h1 := (Split_no_separator text "---" (by decide)).mpr hc
    omega
  have hiff : (∃ ctx', LoadSrvFromString P fs depth ctx text fullName
      = some (.error .missingSeparator, ctx')) ↔ (Split text "---").length ≠ 2 := by
    refine ⟨?_, fun hlen => ⟨ctx, hfail hlen⟩⟩
    rintro ⟨ctx', h⟩ hlen
    exact htwo hlen ctx' h
  refine ⟨hiff, hfail, hnone, ?_, hcount, ?_, fun hc => hfail (hnone hc), ?_, ?_⟩
  rotate_left
  · rw [hiff, hcount]
    omega
  · intro a b c htext
    apply hfail
    have h3 := Split_two_separators a b c "---" (by decide)
    rw [← htext] at h3
    omega
  · intro a b htext ha hb
    have hs : Split text "---" = [a, b] := by
      rw [htext]
      exact Split_one_marker a b ha hb
    have hlen : (Split text "---").length = 2 := by rw [hs]; rfl
    refine ⟨hs, by omega, htwo hlen⟩
  · intro reqText resText hs
    have heq := LoadSrvFromString_two P fs depth ctx text fullName packageName shortName
      reqText resText hname hs
    refine ⟨Split_two_parts text "---" reqText resText (by decide) hs, ?_, ?_, ?_⟩
    · intro err c1 h1
      rw [heq, h1]
    · intro reqSpec c1 err c2 h1 h2
      rw [heq, h1]
      simp only [h2]
    · intro srv ctx' h
      rw [heq] at h
      split at h
      · simp at h
      · simp at h
      · next reqSpec c1 h1 =>
        split at h
        · simp at h
        · simp at h
        · next resSpec c2 h2 =>
          split at h
          · simp at h
          · simp at h
          · simp only [Option.some.injEq, Prod.mk.injEq, Result.ok.injEq] at h
            obtain ⟨hsrv, _⟩ := h
            subst hsrv
            exact ⟨rfl, c1, c2, h1, h2⟩

/-- A service text without separator, one with two separators, and the text
`"int32 a\n---\nint32 b"`. -/
theorem LoadSrvFromString_separator_witness :
    specHelpers.packageResourceName "pkg/S" = .ok ("pkg", "S") ∧
    LoadSrvFromString specHelpers noFiles 1 emptyContext "int32 a\nint32 b" "pkg/S"
      = some (.error .missingSeparator, emptyContext) ∧
    LoadSrvFromString specHelpers noFiles 1 emptyContext
        "int32 a\n---\nint32 b\n---\nint32 c" "pkg/S"
      = some (.error .missingSeparator, emptyContext) ∧
    Split "int32 a\n---\nint32 b" "---" = ["int32 a\n", "\nint32 b"] ∧
    LoadSrvFromString specHelpers noFiles 1 emptyContext "int32 a\n---\nint32 b" "pkg/S"
      = some (.ok sampleSrv, sampleSrvContext) :=
  ⟨by decide,
    (LoadSrvFromString_separator specHelpers noFiles 1 emptyContext "int32 a\nint32 b" "pkg/S"
      "pkg" "S" (by decide)).2.1 (by decide),
    (LoadSrvFromString_separator specHelpers noFiles 1 emptyContext
      "int32 a\n---\nint32 b\n---\nint32 c" "pkg/S" "pkg" "S" (by decide)).2.2.2.2.2.2.2.1
      "int32 a\n" "\nint32 b\n" "\nint32 c" (by decide),
    ((LoadSrvFromString_separator specHelpers noFiles 1 emptyContext "int32 a\n---\nint32 b"
      "pkg/S" "pkg" "S" (by decide)).2.2.2.2.2.2.2.2
      "int32 a\n" "\nint32 b" (by decide) (by decide) (by decide)).1,
    by decide!⟩

/-! ## The canonical text -/

theorem resolve_set (P : Helpers) (fs : FileSystem) (ctx ctx' : MsgContext) (X Y : String)
    (spec : MsgSpec) (hidx : ctx'.msgPathMap = ctx.msgPathMap)
    (hreg : ctx'.msgRegistry = ctx.msgRegistry.set X spec) :
    resolve P fs ctx' Y
      = if X = Y then some (spec.Constants, spec.Fields) else resolve P fs ctx Y := by
  by_cases h : X = Y
  · subst h
    simp [resolve, hreg, Map.get_set_self]
  · simp [resolve, hreg, hidx, Map.get_set_other _ _ _ _ h, h]

theorem writeLines_data (ls : List String) (buf : String) :
    (writeLines ls buf).data = buf.data ++ (ls.map (fun l => l.data ++ ['\n'])).flatten := by
  induction ls generalizing buf with
  | nil => simp [writeLines]
  | cons l rest ih =>
    rw [writeLines, ih]
    simp [String.data_append]

theorem writeLines_append (ls ls' : List String) (buf : String) :
    writeLines (ls ++ ls') buf = writeLines ls' (writeLines ls buf) := by
  induction ls generalizing buf with
  | nil => rfl
  | cons l rest ih => simp [writeLines, ih]

theorem constantsLoop_eq (constants : List Constant) (buf : String) :
    constantsLoop constants buf = writeLines (constants.map constantLine) buf := by
  induction constants generalizing buf with
  | nil => rfl
  | cons c rest ih => simp [constantsLoop, writeLines, constantLine, ih]

theorem Join_data (ls : List String) (sep : String) :
    (Join ls sep).data = joinChars sep.data (ls.map String.data) := by
  induction ls with
  | nil => rfl
  | cons a rest ih =>
    cases rest with
    | nil => rfl
    | cons b rest =>
      simp only [Join, String.data_append, ih, List.map_cons, joinChars]

theorem flatten_lines (ls : List (List Char)) (h : ls ≠ []) :
    (ls.map (fun l => l ++ ['\n'])).flatten = joinChars ['\n'] ls ++ ['\n'] := by
  induction ls with
  | nil => exact absurd rfl h
  | cons a rest ih =>
    cases rest with
    | nil => simp [joinChars]
    | cons b rest =>
      have := ih (by simp)
      simp only [List.map_cons, List.flatten_cons] at this ⊢
      rw [this]
      simp [joinChars]

theorem trimLeftChars_append (cut a b : List Char) :
    trimLeftChars cut (a ++ b)
      = if trimLeftChars cut a = [] then trimLeftChars cut b else trimLeftChars cut a ++ b := by
  induction a with
  | nil => simp [trimLeftChars]
  | cons c cs ih =>
    by_cases hc : c ∈ cut
    · simp [trimLeftChars, hc, ih]
    · simp [trimLeftChars, hc]

/-- A newline at the end of a text does not change what `Trim` returns. -/
theorem Trim_append_newline (s : String) : Trim (s ++ "\n") "\n" = Trim s "\n" := by
  unfold Trim
  congr 2
  have hd : ("\n" : String).data = ['\n'] := rfl
  rw [String.data_append, hd, trimLeftChars_append]
  split
  · next h => simp [h, trimLeftChars]
  · next h => simp [trimLeftChars]

/-- The buffer of `ComputeMD5Text`, trimmed, is the lines joined by a
newline, trimmed. -/
theorem Trim_writeLines (ls : List String) :
    Trim (writeLines ls "") "\n" = Trim (Join ls "\n") "\n" := by
  cases ls with
  | nil => rfl
  | cons a rest =>
    rw [← Trim_append_newline (Join (a :: rest) "\n")]
    congr 1
    apply String.ext
    have hd : ("\n" : String).data = ['\n'] := rfl
    have he : ("" : String).data = [] := rfl
    rw [writeLines_data, String.data_append, Join_data, hd, he, List.nil_append,
      ← flatten_lines _ (by simp)]
    simp only [List.map_map]
    rfl

section Refinement

variable (P : Helpers) (fs : FileSystem)
variable (md5Text : MsgContext → MsgSpec → Call String)
variable (text : List Constant → List Field → Option String)
variable (env : String → Option (List Constant × List Field))

/-- A name that resolves is loaded, as the constants and fields it stands
for, and the context left resolves names as before. -/
theorem LoadMsgWith_resolves (hrec : Computes P fs md5Text text env)
    (ctx : MsgContext) (X : String) (cs : List Constant) (fields : List Field) (t : String)
    (henv : resolve P fs ctx = env) (hX : env X = some (cs, fields))
    (ht : text cs fields = some t) :
    ∃ sub ctx1, LoadMsgWith P fs md5Text ctx X = some (.ok sub, ctx1) ∧
      sub.Constants = cs ∧ sub.Fields = fields ∧ resolve P fs ctx1 = env := by
  rw [← henv] at hX
  unfold resolve at hX
  unfold LoadMsgWith
  split at hX
  · next spec hreg =>
    simp only [Option.some.injEq, Prod.mk.injEq] at hX
    exact ⟨spec, ctx, rfl, hX.1, hX.2, henv⟩
  · next hreg =>
    split at hX
    · simp at hX
    · next path hidx =>
      split at hX
      · simp at hX
      · next txt hfile =>
        split at hX
        · simp at hX
        · next packageName shortName hname =>
          split at hX
          · simp at hX
          · next fields' constants' hlines =>
            simp only [Option.some.injEq, Prod.mk.injEq] at hX
            obtain ⟨hc, hf⟩ := hX
            subst hc hf
            obtain ⟨ctx1, h1, henv1⟩ := hrec ctx
              (NewMsgSpec fields' constants' txt X packageName shortName) t henv ht
            have hX1 : resolve P fs ctx1 X = some (constants', fields') := by
              rw [henv1, ← henv]
              simp [resolve, hreg, hidx, hfile, hname, hlines]
            let s : MsgSpec :=
              { NewMsgSpec fields' constants' txt X packageName shortName with
                MD5Sum := EncodeToString (md5New.Write (toBytes t)).Sum }
            let c1 : MsgContext := Register ctx1 X s
            let c2 : MsgContext := { c1 with msgRegistry := c1.msgRegistry.set X s }
            refine ⟨s, c2, ?_, rfl, rfl, ?_⟩
            · simp only [hidx, LoadMsgFromFileWith, hfile, LoadMsgFromStringWith, hname, hlines,
                ComputeMsgMD5With, h1]
            · funext Y
              have e2 := resolve_set P fs c1 c2 X Y s rfl rfl
              have e1 := resolve_set P fs ctx1 c1 X Y s rfl rfl
              rw [e2, e1]
              by_cases hY : X = Y
              · subst hY
                rw [if_pos rfl, ← henv1, hX1]
                rfl
              · rw [if_neg hY, if_neg hY, henv1]

/-- A name that does not resolve makes `LoadMsg` fail. -/
theorem LoadMsgWith_unresolved (ctx : MsgContext) (X : String)
    (hX : resolve P fs ctx X = none) :
    ∃ err, LoadMsgWith P fs md5Text ctx X = some (.error err, ctx) := by
  unfold resolve at hX
  unfold LoadMsgWith
  cases hreg : ctx.msgRegistry.get X with
  | some spec => simp [hreg] at hX
  | none =>
    simp only [hreg] at hX
    cases hidx : ctx.msgPathMap.get X with
    | none => exact ⟨_, rfl⟩
    | some path =>
      simp only [hidx] at hX
      simp only [LoadMsgFromFileWith]
      cases hfile : fs path with
      | error e => exact ⟨_, rfl⟩
      | ok txt =>
        simp only [hfile] at hX
        simp only [LoadMsgFromStringWith]
        cases hname : P.packageResourceName X with
        | error e => exact ⟨_, rfl⟩
        | ok pr =>
          obtain ⟨packageName, shortName⟩ := pr
          simp only [hname] at hX
          dsimp only
          cases hlines : loadLines P X packageName (Split txt "\n") 0 [] [] with
          | error e => exact ⟨_, rfl⟩
          | ok r => simp [hlines] at hX

/-- The loop of `ComputeMD5Text` returns the text of `fieldsText`, and leaves
a context that resolves names as before. -/
theorem fieldsLoop_text (hrec : Computes P fs md5Text text env)
    (fields : List Field) (ctx : MsgContext) (buf t : String)
    (henv : resolve P fs ctx = env)
    (ht : fieldsText (fun cs fs => (text cs fs).map digestOfText) env fields buf = some t) :
    ∃ ctx', fieldsLoop P fs md5Text fields ctx buf = some (.ok t, ctx') ∧
      resolve P fs ctx' = env := by
  induction fields generalizing ctx buf with
  | nil =>
    simp only [fieldsText, Option.some.injEq] at ht
    subst ht
    exact ⟨ctx, rfl, henv⟩
  | cons f rest ih =>
    unfold fieldsText at ht
    unfold fieldsLoop
    split at ht
    · next hp =>
      rw [if_pos hp]
      exact ih ctx _ henv ht
    · next hp =>
      rw [if_neg hp]
      split at ht
      · next hX =>
        simp only [Option.some.injEq] at ht
        subst ht
        rw [← henv] at hX
        obtain ⟨err, hload⟩ := LoadMsgWith_unresolved P fs md5Text ctx _ hX
        rw [hload]
        exact ⟨ctx, rfl, henv⟩
      · next cs fs' hX =>
        split at ht
        · simp at ht
        · next d hd =>
          simp only [Option.map_eq_some'] at hd
          obtain ⟨t', ht', hdt⟩ := hd
          obtain ⟨sub, ctx1, hload, hsc, hsf, henv1⟩ :=
            LoadMsgWith_resolves P fs md5Text text env hrec ctx _ cs fs' t' henv hX ht'
          rw [← hsc, ← hsf] at ht'
          obtain ⟨ctx2, h2, henv2⟩ := hrec ctx1 sub t' henv1 ht'
          obtain ⟨ctx', h', henv'⟩ := ih ctx2 (buf ++ (d ++ " " ++ f.Name ++ "\n")) henv2 ht
          refine ⟨ctx', ?_, henv'⟩
          simp only [hload, ComputeMsgMD5With, h2]
          have : EncodeToString (md5New.Write (toBytes t')).Sum = d := by
            rw [← hdt]
            simp [digestOfText, Hash.Write, Hash.Sum, md5New]
          rw [this, h']

end Refinement

/-- The method `ComputeMD5Text` returns the text of `md5TextOf` at every depth, on every
context, and leaves a context that resolves names as before. -/
theorem ComputeMD5Text_computes (P : Helpers) (fs : FileSystem)
    (env : String → Option (List Constant × List Field)) (depth : Nat) :
    Computes P fs (ComputeMD5Text P fs depth) (md5TextOf depth env) env := by
  induction depth with
  | zero =>
    intro ctx spec t _ ht
    simp [md5TextOf] at ht
  | succ n ih =>
    intro ctx spec t henv ht
    exact fieldsLoop_text P fs (ComputeMD5Text P fs n) (md5TextOf n env) env ih spec.Fields
      ctx (constantsLoop spec.Constants "") t henv ht

/-! ### Newlines at the ends of the canonical text -/

theorem trimLeftChars_head (cut s : List Char) (c : Char)
    (h : (trimLeftChars cut s).head? = some c) : c ∉ cut := by
  induction s with
  | nil => simp [trimLeftChars] at h
  | cons d ds ih =>
    by_cases hd : d ∈ cut
    · simp only [trimLeftChars, hd, if_true] at h
      exact ih h
    · simp only [trimLeftChars, hd, if_false, List.head?_cons, Option.some.injEq] at h
      rw [← h]; exact hd

theorem trimLeftChars_suffix (cut s : List Char) : trimLeftChars cut s <:+ s := by
  induction s with
  | nil => exact List.suffix_refl _
  | cons d ds ih =>
    by_cases hd : d ∈ cut
    · simp only [trimLeftChars, hd, if_true]
      exact List.IsSuffix.trans ih (List.suffix_cons _ _)
    · simp only [trimLeftChars, hd, if_false]
      exact List.suffix_refl _

theorem trimLeftChars_id (cut s : List Char) (h : ∀ c, s.head? = some c → c ∉ cut) :
    trimLeftChars cut s = s := by
  cases s with
  | nil => rfl
  | cons d ds =>
    have hd : d ∉ cut := h d rfl
    simp [trimLeftChars, hd]

theorem getLast?_of_suffix (a b : List Char) (h : a <:+ b) (ha : a ≠ []) :
    a.getLast? = b.getLast? := by
  obtain ⟨t, rfl⟩ := h
  rw [List.getLast?_append_of_ne_nil _ ha]

/-- The text that `Trim` returns neither starts nor ends with a newline. -/
theorem Trim_ends (s : String) :
    (Trim s "\n").data.head? ≠ some '\n' ∧ (Trim s "\n").data.getLast? ≠ some '\n' := by
  have hd : ("\n" : String).data = ['\n'] := rfl
  unfold Trim
  simp only [hd]
  constructor
  · intro h
    rw [List.head?_reverse] at h
    by_cases he : trimLeftChars ['\n'] (trimLeftChars ['\n'] s.data).reverse = []
    · rw [he] at h; simp at h
    · rw [getLast?_of_suffix _ _ (trimLeftChars_suffix _ _) he, List.getLast?_reverse] at h
      exact trimLeftChars_head _ _ _ h (by simp)
  · intro h
    rw [List.getLast?_reverse] at h
    exact trimLeftChars_head _ _ _ h (by simp)

/-- A text that neither starts nor ends with a newline is left as it is. -/
theorem Trim_id (s : String) (hh : s.data.head? ≠ some '\n') (hl : s.data.getLast? ≠ some '\n') :
    Trim s "\n" = s := by
  have hd : ("\n" : String).data = ['\n'] := rfl
  unfold Trim
  apply String.ext
  simp only [hd]
  rw [trimLeftChars_id _ s.data, trimLeftChars_id _ s.data.reverse, List.reverse_reverse]
  · intro c hc
    rw [List.head?_reverse] at hc
    simp only [List.mem_singleton]
    rintro rfl
    exact hl hc
  · intro c hc
    simp only [List.mem_singleton]
    rintro rfl
    exact hh hc

theorem joinChars_head (sep a : List Char) (rest : List (List Char)) (ha : a ≠ []) :
    (joinChars sep (a :: rest)).head? = a.head? := by
  cases rest with
  | nil => rfl
  | cons b rest =>
    cases a with
    | nil => exact absurd rfl ha
    | cons c cs => simp [joinChars]

theorem joinChars_ne_nil (sep : List Char) (ls : List (List Char)) (hne : ls ≠ [])
    (h : ∀ l ∈ ls, l ≠ []) : joinChars sep ls ≠ [] := by
  cases ls with
  | nil => exact absurd rfl hne
  | cons a rest =>
    have ha : a ≠ [] := h a (List.mem_cons_self _ _)
    cases rest with
    | nil => simpa [joinChars] using ha
    | cons b rest => simp [joinChars, ha]

theorem joinChars_getLast (sep : List Char) (ls : List (List Char)) (c : Char)
    (h : ∀ l ∈ ls, l ≠ []) (hc : (joinChars sep ls).getLast? = some c) :
    ∃ l ∈ ls, l.getLast? = some c := by
  induction ls with
  | nil => simp [joinChars] at hc
  | cons a rest ih =>
    cases rest with
    | nil => exact ⟨a, List.mem_cons_self _ _, by simpa [joinChars] using hc⟩
    | cons b rest =>
      have hrest : ∀ l ∈ b :: rest, l ≠ [] := fun l hl => h l (List.mem_cons_of_mem _ hl)
      have hne := joinChars_ne_nil sep (b :: rest) (by simp) hrest
      simp only [joinChars] at hc
      rw [List.getLast?_append_of_ne_nil _ hne] at hc
      obtain ⟨l, hl, hlc⟩ := ih hrest hc
      exact ⟨l, List.mem_cons_of_mem _ hl, hlc⟩

/-- Lines that are not empty and hold no newline, joined by a newline, are
left as they are by `Trim`. -/
theorem Trim_Join (ls : List String) (h : ∀ l ∈ ls, l.data ≠ [] ∧ '\n' ∉ l.data) :
    Trim (Join ls "\n") "\n" = Join ls "\n" := by
  have hd : ("\n" : String).data = ['\n'] := rfl
  have hne : ∀ l ∈ ls.map String.data, l ≠ [] := by
    intro l hl
    obtain ⟨s, hs, rfl⟩ := List.mem_map.mp hl
    exact (h s hs).1
  apply Trim_id
  · rw [Join_data]
    cases ls with
    | nil => simp [joinChars]
    | cons a rest =>
      have ha := h a (List.mem_cons_self _ _)
      rw [List.map_cons, joinChars_head _ _ _ ha.1]
      intro hc
      exact ha.2 (List.mem_of_mem_head? hc)
  · rw [Join_data]
    intro hc
    obtain ⟨l, hl, hlc⟩ := joinChars_getLast _ _ _ hne hc
    obtain ⟨s, hs, rfl⟩ := List.mem_map.mp hl
    exact (h s hs).2 (List.mem_of_mem_getLast? hlc)

/-! ### The lines of the fields -/

section Lines

variable (digest : List Constant → List Field → Option String)
variable (env : String → Option (List Constant × List Field))

theorem constantLine_ne_nil (c : Constant) : (constantLine c).data ≠ [] := by
  simp [constantLine, String.data_append]

theorem fieldLineWith_ne_nil (f : Field) (l : String) (h : fieldLineWith digest env f = some l) :
    l.data ≠ [] := by
  unfold fieldLineWith at h
  split at h
  · simp only [Option.some.injEq] at h
    subst h
    simp [String.data_append]
  · split at h
    · simp at h
    · split at h
      · simp at h
      · simp only [Option.some.injEq] at h
        subst h
        simp [String.data_append]

theorem fieldLinesWith_cons (f : Field) (rest : List Field) (lines : List String)
    (h : fieldLinesWith digest env (f :: rest) = some lines) :
    ∃ l ls, fieldLineWith digest env f = some l ∧ fieldLinesWith digest env rest = some ls ∧
      lines = l :: ls := by
  unfold fieldLinesWith at h
  split at h
  · next l ls hl hls =>
    simp only [Option.some.injEq] at h
    exact ⟨l, ls, hl, hls, h.symm⟩
  · simp at h

theorem fieldLinesWith_cons_some (f : Field) (rest : List Field) (l : String) (ls : List String)
    (hl : fieldLineWith digest env f = some l) (hls : fieldLinesWith digest env rest = some ls) :
    fieldLinesWith digest env (f :: rest) = some (l :: ls) := by
  simp [fieldLinesWith, hl, hls]

theorem fieldLinesWith_append (a b : List Field) (lines : List String)
    (h : fieldLinesWith digest env (a ++ b) = some lines) :
    ∃ la lb, fieldLinesWith digest env a = some la ∧ fieldLinesWith digest env b = some lb ∧
      lines = la ++ lb := by
  induction a generalizing lines with
  | nil => exact ⟨[], lines, rfl, h, rfl⟩
  | cons f rest ih =>
    obtain ⟨l, ls, hl, hls, rfl⟩ := fieldLinesWith_cons digest env f (rest ++ b) lines h
    obtain ⟨la, lb, hla, hlb, rfl⟩ := ih ls hls
    exact ⟨l :: la, lb, fieldLinesWith_cons_some digest env f rest l la hl hla, hlb, rfl⟩

theorem fieldLinesWith_append_some (a b : List Field) (la lb : List String)
    (ha : fieldLinesWith digest env a = some la) (hb : fieldLinesWith digest env b = some lb) :
    fieldLinesWith digest env (a ++ b) = some (la ++ lb) := by
  induction a generalizing la with
  | nil =>
    simp only [fieldLinesWith, Option.some.injEq] at ha
    subst ha
    exact hb
  | cons f rest ih =>
    obtain ⟨l, ls, hl, hls, rfl⟩ := fieldLinesWith_cons digest env f rest la ha
    exact fieldLinesWith_cons_some digest env f (rest ++ b) l (ls ++ lb) hl (ih ls hls)

theorem fieldLinesWith_ne_nil (fields : List Field) (lines : List String)
    (h : fieldLinesWith digest env fields = some lines) : ∀ l ∈ lines, l.data ≠ [] := by
  induction fields generalizing lines with
  | nil =>
    simp only [fieldLinesWith, Option.some.injEq] at h
    subst h
    simp
  | cons f rest ih =>
    obtain ⟨l, ls, hl, hls, rfl⟩ := fieldLinesWith_cons digest env f rest lines h
    intro x hx
    rcases List.mem_cons.mp hx with rfl | hx
    · exact fieldLineWith_ne_nil digest env f x hl
    · exact ih ls hls x hx

end Lines

theorem append_newline_inj (a b x y : List Char) (ha : '\n' ∉ a) (hb : '\n' ∉ b)
    (h : a ++ '\n' :: x = b ++ '\n' :: y) : a = b ∧ x = y := by
  induction a generalizing b with
  | nil =>
    cases b with
    | nil => simpa using h
    | cons d ds =>
      simp only [List.nil_append, List.cons_append, List.cons.injEq] at h
      exact absurd (by rw [h.1]; exact List.mem_cons_self _ _) hb
  | cons c cs ih =>
    cases b with
    | nil =>
      simp only [List.nil_append, List.cons_append, List.cons.injEq] at h
      exact absurd (by rw [← h.1]; exact List.mem_cons_self _ _) ha
    | cons d ds =>
      simp only [List.cons_append, List.cons.injEq] at h
      obtain ⟨hcd, hrest⟩ := h
      obtain ⟨h1, h2⟩ := ih ds (fun hm => ha (List.mem_cons_of_mem _ hm))
        (fun hm => hb (List.mem_cons_of_mem _ hm)) hrest
      exact ⟨by rw [hcd, h1], h2⟩

/-- Lists of as many lines without newline that are joined to the same text
are equal. -/
theorem joinChars_inj (ls ls' : List (List Char)) (hlen : ls.length = ls'.length)
    (h : ∀ l ∈ ls, '\n' ∉ l) (h' : ∀ l ∈ ls', '\n' ∉ l)
    (heq : joinChars ['\n'] ls = joinChars ['\n'] ls') : ls = ls' := by
  induction ls generalizing ls' with
  | nil =>
    cases ls' with
    | nil => rfl
    | cons b rest' => simp at hlen
  | cons a rest ih =>
    cases ls' with
    | nil => simp at hlen
    | cons b rest' =>
      have hlen' : rest.length = rest'.length := by simpa using hlen
      cases rest with
      | nil =>
        cases rest' with
        | nil => simpa [joinChars] using heq
        | cons r' rs' => simp at hlen'
      | cons r rs =>
        cases rest' with
        | nil => simp at hlen'
        | cons r' rs' =>
          simp only [joinChars, List.append_assoc, List.singleton_append] at heq
          obtain ⟨hab, hj⟩ := append_newline_inj a b _ _ (h a (List.mem_cons_self _ _))
            (h' b (List.mem_cons_self _ _)) heq
          have := ih (r' :: rs') hlen' (fun l hl => h l (List.mem_cons_of_mem _ hl))
            (fun l hl => h' l (List.mem_cons_of_mem _ hl)) hj
          rw [hab, this]

/-- Different lists of as many lines without newline are joined to different
texts. -/
theorem Join_inj (ls ls' : List String) (hlen : ls.length = ls'.length)
    (h : ∀ l ∈ ls, '\n' ∉ l.data) (h' : ∀ l ∈ ls', '\n' ∉ l.data)
    (heq : Join ls "\n" = Join ls' "\n") : ls = ls' := by
  have hd : ("\n" : String).data = ['\n'] := rfl
  have hdata := congrArg String.data heq
  rw [Join_data, Join_data, hd] at hdata
  have hmap := joinChars_inj (ls.map String.data) (ls'.map String.data)
    (by simp [hlen])
    (by
      intro l hl
      obtain ⟨s, hs, rfl⟩ := List.mem_map.mp hl
      exact h s hs)
    (by
      intro l hl
      obtain ⟨s, hs, rfl⟩ := List.mem_map.mp hl
      exact h' s hs)
    hdata
  exact List.map_injective_iff.mpr (fun a b hab => String.ext hab) hmap

/-! ### The text of `md5TextOf` is the only one returned -/

section Converse

variable (P : Helpers) (fs : FileSystem)
variable (md5Text : MsgContext → MsgSpec → Call String)
variable (text : (String → Option (List Constant × List Field)) →
  List Constant → List Field → Option String)

/-- A failed `LoadMsg` is the load of a name that does not resolve. -/
theorem LoadMsgWith_error_unresolved (hrec : Reflects P fs md5Text text)
    (ctx : MsgContext) (X : String) (err : Error) (ctx1 : MsgContext)
    (h : LoadMsgWith P fs md5Text ctx X = some (.error err, ctx1)) :
    resolve P fs ctx X = none ∧ ctx1 = ctx := by
  unfold LoadMsgWith at h
  cases hreg : ctx.msgRegistry.get X with
  | some spec => simp [hreg] at h
  | none =>
    simp only [hreg] at h
    cases hidx : ctx.msgPathMap.get X with
    | none =>
      simp only [hidx, Option.some.injEq, Prod.mk.injEq] at h
      exact ⟨by simp [resolve, hreg, hidx], h.2.symm⟩
    | some path =>
      simp only [hidx, LoadMsgFromFileWith] at h
      cases hfile : fs path with
      | error e =>
        simp only [hfile, Option.some.injEq, Prod.mk.injEq] at h
        exact ⟨by simp [resolve, hreg, hidx, hfile], h.2.symm⟩
      | ok txt =>
        simp only [hfile, LoadMsgFromStringWith] at h
        cases hname : P.packageResourceName X with
        | error e =>
          simp only [hname, Option.some.injEq, Prod.mk.injEq] at h
          exact ⟨by simp [resolve, hreg, hidx, hfile, hname], h.2.symm⟩
        | ok pr =>
          obtain ⟨packageName, shortName⟩ := pr
          simp only [hname] at h
          cases hlines : loadLines P X packageName (Split txt "\n") 0 [] [] with
          | error e =>
            simp only [hlines, Option.some.injEq, Prod.mk.injEq] at h
            exact ⟨by simp [resolve, hreg, hidx, hfile, hname, hlines], h.2.symm⟩
          | ok r =>
            obtain ⟨fields, constants⟩ := r
            simp only [hlines, ComputeMsgMD5With] at h
            cases hm : md5Text ctx (NewMsgSpec fields constants txt X packageName shortName) with
            | none => simp [hm] at h
            | some res =>
              obtain ⟨r, c⟩ := res
              obtain ⟨t, _, hr, _⟩ := hrec _ _ _ _ hm
              subst hr
              simp [hm] at h

/-- A successful `LoadMsg` returns the constants and fields that the name
resolves to, and leaves a context that resolves names as before. -/
theorem LoadMsgWith_ok_resolved (hrec : Reflects P fs md5Text text)
    (ctx : MsgContext) (X : String) (sub : MsgSpec) (ctx1 : MsgContext)
    (h : LoadMsgWith P fs md5Text ctx X = some (.ok sub, ctx1)) :
    resolve P fs ctx X = some (sub.Constants, sub.Fields) ∧
      resolve P fs ctx1 = resolve P fs ctx := by
  unfold LoadMsgWith at h
  cases hreg : ctx.msgRegistry.get X with
  | some spec =>
    simp only [hreg, Option.some.injEq, Prod.mk.injEq, Result.ok.injEq] at h
    obtain ⟨h1, h2⟩ := h
    subst h1 h2
    simp [resolve, hreg]
  | none =>
    simp only [hreg] at h
    cases hidx : ctx.msgPathMap.get X with
    | none => simp [hidx] at h
    | some path =>
      simp only [hidx, LoadMsgFromFileWith] at h
      cases hfile : fs path with
      | error e => simp [hfile] at h
      | ok txt =>
        simp only [hfile, LoadMsgFromStringWith] at h
        cases hname : P.packageResourceName X with
        | error e => simp [hname] at h
        | ok pr =>
          obtain ⟨packageName, shortName⟩ := pr
          simp only [hname] at h
          cases hlines : loadLines P X packageName (Split txt "\n") 0 [] [] with
          | error e => simp [hlines] at h
          | ok r =>
            obtain ⟨fields, constants⟩ := r
            simp only [hlines, ComputeMsgMD5With] at h
            cases hm : md5Text ctx (NewMsgSpec fields constants txt X packageName shortName) with
            | none => simp [hm] at h
            | some res =>
              obtain ⟨r, c⟩ := res
              obtain ⟨t, _, hr, henv⟩ := hrec _ _ _ _ hm
              subst hr
              simp only [hm, Option.some.injEq, Prod.mk.injEq, Result.ok.injEq] at h
              obtain ⟨h1, h2⟩ := h
              have hX : resolve P fs ctx X = some (constants, fields) := by
                simp [resolve, hreg, hidx, hfile, hname, hlines]
              subst h1
              refine ⟨hX, ?_⟩
              funext Y
              rw [← h2]
              let s : MsgSpec :=
                { NewMsgSpec fields constants txt X packageName shortName with
                  MD5Sum := EncodeToString (md5New.Write (toBytes t)).Sum }
              let c1 : MsgContext := Register c X s
              let c2 : MsgContext := { c1 with msgRegistry := c1.msgRegistry.set X s }
              have e2 := resolve_set P fs c1 c2 X Y s rfl rfl
              have e1 := resolve_set P fs c c1 X Y s rfl rfl
              show resolve P fs c2 Y = resolve P fs ctx Y
              rw [e2, e1]
              by_cases hY : X = Y
              · subst hY
                rw [if_pos rfl, hX]
                rfl
              · rw [if_neg hY, if_neg hY, henv]

/-- The loop of `ComputeMD5Text` returns nothing but the text of
`fieldsText`. -/
theorem fieldsLoop_reflects (hrec : Reflects P fs md5Text text)
    (fields : List Field) (ctx : MsgContext) (buf : String) (r : Result String)
    (ctx' : MsgContext)
    (env : String → Option (List Constant × List Field)) (henv : resolve P fs ctx = env)
    (h : fieldsLoop P fs md5Text fields ctx buf = some (r, ctx')) :
    ∃ t, fieldsText (fun cs fs => (text env cs fs).map digestOfText) env fields buf = some t ∧
      r = .ok t ∧ resolve P fs ctx' = env := by
  induction fields generalizing ctx buf with
  | nil =>
    simp only [fieldsLoop, Option.some.injEq, Prod.mk.injEq] at h
    exact ⟨_, rfl, h.1.symm, by rw [← h.2]; exact henv⟩
  | cons f rest ih =>
    unfold fieldsLoop at h
    unfold fieldsText
    by_cases hp : f.Package = ""
    · rw [if_pos hp] at h ⊢
      exact ih ctx _ henv h
    · rw [if_neg hp] at h ⊢
      cases hload : LoadMsgWith P fs md5Text ctx (f.Package ++ "/" ++ f.Type_) with
      | none => simp [hload] at h
      | some res =>
        obtain ⟨lr, ctx1⟩ := res
        cases lr with
        | error e =>
          obtain ⟨hX, hc⟩ := LoadMsgWith_error_unresolved P fs md5Text text hrec ctx _ e ctx1 hload
          simp only [hload, Option.some.injEq, Prod.mk.injEq] at h
          rw [henv] at hX
          simp only [hX]
          exact ⟨_, rfl, h.1.symm, by rw [← h.2, hc]; exact henv⟩
        | ok sub =>
          obtain ⟨hX, henv1⟩ := LoadMsgWith_ok_resolved P fs md5Text text hrec ctx _ sub ctx1 hload
          rw [henv] at hX henv1
          simp only [hload, ComputeMsgMD5With] at h
          simp only [hX]
          cases hm : md5Text ctx1 sub with
          | none => simp [hm] at h
          | some res2 =>
            obtain ⟨r2, ctx2⟩ := res2
            obtain ⟨t', ht', hr2, henv2⟩ := hrec _ _ _ _ hm
            subst hr2
            rw [henv1] at ht' henv2
            simp only [hm] at h
            simp only [ht', Option.map_some']
            have : EncodeToString (md5New.Write (toBytes t')).Sum = digestOfText t' := by
              simp [digestOfText, Hash.Write, Hash.Sum, md5New]
            rw [this] at h
            exact ih ctx2 _ henv2 h

end Converse

/-- Whatever `ComputeMD5Text` returns is the text of `md5TextOf`, and the
context it leaves resolves names as before. -/
theorem ComputeMD5Text_reflects (P : Helpers) (fs : FileSystem) (depth : Nat) :
    Reflects P fs (ComputeMD5Text P fs depth) (md5TextOf depth) := by
  induction depth with
  | zero =>
    intro ctx spec r ctx' h
    simp [ComputeMD5Text] at h
  | succ n ih =>
    intro ctx spec r ctx' h
    unfold ComputeMD5Text at h
    exact fieldsLoop_reflects P fs (ComputeMD5Text P fs n) (md5TextOf n) ih spec.Fields ctx _ r
      ctx' (resolve P fs ctx) rfl h

/-- The text that `ComputeMD5Text` returns is the text of `md5TextOf`: the
call returns exactly when that text is defined, and then returns it. -/
theorem ComputeMD5Text_iff (P : Helpers) (fs : FileSystem) (depth : Nat) (ctx : MsgContext)
    (spec : MsgSpec) (t : String) :
    (∃ ctx', ComputeMD5Text P fs depth ctx spec = some (.ok t, ctx')) ↔
      md5TextOf depth (resolve P fs ctx) spec.Constants spec.Fields = some t := by
  constructor
  · rintro ⟨ctx', h⟩
    obtain ⟨t', ht', hr, _⟩ := ComputeMD5Text_reflects P fs depth ctx spec _ ctx' h
    simp only [Result.ok.injEq] at hr
    rw [hr]; exact ht'
  · intro h
    obtain ⟨ctx', hrun, _⟩ := ComputeMD5Text_computes P fs (resolve P fs ctx) depth ctx spec t rfl h
    exact ⟨ctx', hrun⟩

/-! ### The canonical text of `ComputeMD5Text` -/

/-- When every field has its line, the loop over the fields returns the
trimmed buffer with the lines written to it. -/
theorem fieldsText_lines (digest : List Constant → List Field → Option String)
    (env : String → Option (List Constant × List Field)) (fields : List Field)
    (lines : List String) (buf : String)
    (h : fieldLinesWith digest env fields = some lines) :
    fieldsText digest env fields buf = some (Trim (writeLines lines buf) "\n") := by
  induction fields generalizing lines buf with
  | nil =>
    simp only [fieldLinesWith, Option.some.injEq] at h
    subst h
    rfl
  | cons f rest ih =>
    obtain ⟨l, ls, hl, hls, rfl⟩ := fieldLinesWith_cons digest env f rest lines h
    unfold fieldLineWith at hl
    unfold fieldsText
    split at hl
    · next hp =>
      simp only [Option.some.injEq] at hl
      subst hl
      rw [if_pos hp]
      exact ih ls _ hls
    · next hp =>
      rw [if_neg hp]
      split at hl
      · simp at hl
      · next cs fs' hX =>
        split at hl
        · simp at hl
        · next d hd =>
          simp only [Option.some.injEq] at hl
          subst hl
          exact ih ls _ hls

/-- The method `ComputeMsgMD5` returns the digest of `digestOf` whenever that one is
defined. -/
theorem ComputeMsgMD5_digestOf (P : Helpers) (fs : FileSystem) (depth : Nat)
    (ctx : MsgContext) (spec : MsgSpec) (d : String)
    (h : digestOf depth (resolve P fs ctx) spec.Constants spec.Fields = some d) :
    ∃ ctx', ComputeMsgMD5 P fs depth ctx spec = some (.ok d, ctx') ∧
      resolve P fs ctx' = resolve P fs ctx := by
  simp only [digestOf, Option.map_eq_some'] at h
  obtain ⟨t, ht, hd⟩ := h
  obtain ⟨ctx', h', henv⟩ := ComputeMD5Text_computes P fs (resolve P fs ctx) depth ctx spec t rfl ht
  refine ⟨ctx', ?_, henv⟩
  simp only [ComputeMsgMD5, ComputeMsgMD5With, h']
  rw [← hd]
  simp [digestOfText, Hash.Write, Hash.Sum, md5New]

/-- The text of a definition whose fields all have their line. -/
theorem md5TextOf_lines (depth : Nat) (env : String → Option (List Constant × List Field))
    (constants : List Constant) (fields : List Field) (lines : List String)
    (hlines : fieldLinesWith (digestOf depth env) env fields = some lines) :
    md5TextOf (depth + 1) env constants fields
      = some (Trim (Join (constants.map constantLine ++ lines) "\n") "\n") := by
  have hl := fieldsText_lines _ _ fields lines (constantsLoop constants "") hlines
  unfold digestOf at hl
  rw [md5TextOf, hl, constantsLoop_eq, ← writeLines_append, Trim_writeLines]

/-- The lines of a definition, when none of them holds a newline, are joined
to a text that `Trim` leaves as it is. -/
theorem Trim_Join_lines (digest : List Constant → List Field → Option String)
    (env : String → Option (List Constant × List Field))
    (constants : List Constant) (fields : List Field) (lines : List String)
    (hlines : fieldLinesWith digest env fields = some lines)
    (hclean : ∀ l ∈ constants.map constantLine ++ lines, '\n' ∉ l.data) :
    Trim (Join (constants.map constantLine ++ lines) "\n") "\n"
      = Join (constants.map constantLine ++ lines) "\n" := by
  apply Trim_Join
  intro l hl
  refine ⟨?_, hclean l hl⟩
  rcases List.mem_append.mp hl with hc | hf
  · obtain ⟨c, _, rfl⟩ := List.mem_map.mp hc
    exact constantLine_ne_nil c
  · exact fieldLinesWith_ne_nil _ _ fields lines hlines l hf

/-- C2: when every field of a spec has its line (`"<type> <name>"` for an
empty package, else `"<digest> <name>"` with the digest of the message that
the package and type resolve to), `ComputeMD5Text` returns the lines of the
constants (`"<type> <name>=<valueText>"`) followed by the lines of the
fields, both in list order, joined by one newline and trimmed of leading
and trailing newlines; that text neither starts nor ends with a newline, and
it is the joined lines themselves when no line holds a newline.  The context
left resolves every name as before. -/
theorem ComputeMD5Text_canonical_lines (P : Helpers) (fs : FileSystem) (depth : Nat)
    (ctx : MsgContext) (spec : MsgSpec) (lines : List String)
    (hlines : fieldLinesWith (digestOf depth (resolve P fs ctx)) (resolve P fs ctx)
      spec.Fields = some lines) :
    ∃ text ctx', ComputeMD5Text P fs (depth + 1) ctx spec = some (.ok text, ctx') ∧
      text = Trim (Join (spec.Constants.map constantLine ++ lines) "\n") "\n" ∧
      text.data.head? ≠ some '\n' ∧ text.data.getLast? ≠ some '\n' ∧
      ((∀ l ∈ spec.Constants.map constantLine ++ lines, '\n' ∉ l.data) →
        text = Join (spec.Constants.map constantLine ++ lines) "\n") ∧
      resolve P fs ctx' = resolve P fs ctx := by
  have ht := md5TextOf_lines depth (resolve P fs ctx) spec.Constants spec.Fields lines hlines
  obtain ⟨ctx', h, henv⟩ :=
    ComputeMD5Text_computes P fs (resolve P fs ctx) (depth + 1) ctx spec _ rfl ht
  refine ⟨_, ctx', h, rfl, (Trim_ends _).1, (Trim_ends _).2, ?_, henv⟩
  intro hclean
  exact Trim_Join_lines _ _ spec.Constants spec.Fields lines hlines hclean

/-- The fields `int32 x` and `string name` without constants give the 19
bytes of `"int32 x\nstring name"`. -/
theorem ComputeMD5Text_canonical_lines_witness :
    fieldLinesWith (digestOf 0 (resolve specHelpers noFiles emptyContext))
      (resolve specHelpers noFiles emptyContext) sampleA.Fields
      = some ["int32 x", "string name"] ∧
    (∃ text ctx', ComputeMD5Text specHelpers noFiles 1 emptyContext sampleA
        = some (.ok text, ctx') ∧
      text = Trim (Join (sampleA.Constants.map constantLine ++ ["int32 x", "string name"]) "\n")
        "\n" ∧
      text.data.head? ≠ some '\n' ∧ text.data.getLast? ≠ some '\n' ∧
      ((∀ l ∈ sampleA.Constants.map constantLine ++ ["int32 x", "string name"], '\n' ∉ l.data) →
        text = Join (sampleA.Constants.map constantLine ++ ["int32 x", "string name"]) "\n") ∧
      resolve specHelpers noFiles ctx' = resolve specHelpers noFiles emptyContext) ∧
    ComputeMD5Text specHelpers noFiles 1 emptyContext sampleA
      = some (.ok "int32 x\nstring name", emptyContext) ∧
    (toBytes "int32 x\nstring name").length = 19 :=
  ⟨by decide,
    ComputeMD5Text_canonical_lines specHelpers noFiles 0 emptyContext sampleA
      ["int32 x", "string name"] (by decide),
    by decide, by decide⟩

/-- The text of a definition with a nested reference: the line of the field
`pkg/A a` starts with the digest of `pkg/A`. -/
theorem sampleB_text :
    ComputeMD5Text specHelpers sampleFiles 2 sampleContext sampleB
      = some (.ok "ca85c322958a9a81e938f6b9641ea3cf a\nint32 n", sampleLoadedA) ∧
    md5TextOf 2 (resolve specHelpers sampleFiles sampleContext) sampleB.Constants
      sampleB.Fields = some "ca85c322958a9a81e938f6b9641ea3cf a\nint32 n" := by
  decide!

/-! ### The order of the fields -/

/-- C9, as the code has it: in a definition whose fields all have their line
and whose lines hold no newline, exchanging two fields whose lines differ
changes the text that `ComputeMD5Text` returns; `ComputeMsgMD5` returns the
digests of the two texts, which differ unless MD5 collides on them. -/
theorem swap_fields_changes_text (P : Helpers) (fs : FileSystem) (depth : Nat)
    (ctx : MsgContext) (spec spec' : MsgSpec) (pre mid post : List Field) (f g : Field)
    (lines : List String)
    (hfields : spec.Fields = pre ++ f :: (mid ++ g :: post))
    (hfields' : spec'.Fields = pre ++ g :: (mid ++ f :: post))
    (hconst : spec'.Constants = spec.Constants)
    (hlines : fieldLinesWith (digestOf depth (resolve P fs ctx)) (resolve P fs ctx)
      spec.Fields = some lines)
    (hclean : ∀ l ∈ spec.Constants.map constantLine ++ lines, '\n' ∉ l.data)
    (hfg : fieldLineWith (digestOf depth (resolve P fs ctx)) (resolve P fs ctx) f
      ≠ fieldLineWith (digestOf depth (resolve P fs ctx)) (resolve P fs ctx) g) :
    ∃ t t' c c',
      ComputeMD5Text P fs (depth + 1) ctx spec = some (.ok t, c) ∧
      ComputeMD5Text P fs (depth + 1) ctx spec' = some (.ok t', c') ∧
      t ≠ t' ∧
      ComputeMsgMD5 P fs (depth + 1) ctx spec = some (.ok (digestOfText t), c) ∧
      ComputeMsgMD5 P fs (depth + 1) ctx spec' = some (.ok (digestOfText t'), c') ∧
      ((digestOfText t = digestOfText t' → t = t') → digestOfText t ≠ digestOfText t') := by
  rw [hfields] at hlines
  obtain ⟨lp, l1, hlp, h1, rfl⟩ := fieldLinesWith_append _ _ pre _ _ hlines
  obtain ⟨lf, l2, hlf, h2, rfl⟩ := fieldLinesWith_cons _ _ f _ _ h1
  obtain ⟨lm, l3, hlm, h3, rfl⟩ := fieldLinesWith_append _ _ mid _ _ h2
  obtain ⟨lg, lq, hlg, hlq, rfl⟩ := fieldLinesWith_cons _ _ g _ _ h3
  have hne : lf ≠ lg := by
    intro h
    rw [hlf, hlg, h] at hfg
    exact hfg rfl
  have hlines' : fieldLinesWith (digestOf depth (resolve P fs ctx)) (resolve P fs ctx)
      spec'.Fields = some (lp ++ lg :: (lm ++ lf :: lq)) := by
    rw [hfields']
    exact fieldLinesWith_append_some _ _ _ _ _ _ hlp
      (fieldLinesWith_cons_some _ _ _ _ _ _ hlg
        (fieldLinesWith_append_some _ _ _ _ _ _ hlm
          (fieldLinesWith_cons_some _ _ _ _ _ _ hlf hlq)))
  rw [← hfields] at hlines
  have hclean' : ∀ l ∈ spec'.Constants.map constantLine ++ (lp ++ lg :: (lm ++ lf :: lq)),
      '\n' ∉ l.data := by
    intro l hl
    apply hclean l
    rw [hconst] at hl
    simp only [List.mem_append, List.mem_cons] at hl ⊢
    tauto
  have ht := Trim_Join_lines _ _ spec.Constants spec.Fields _ hlines hclean
  have ht' := Trim_Join_lines _ _ spec'.Constants spec'.Fields _ hlines' hclean'
  obtain ⟨c, hrun, _⟩ := ComputeMD5Text_computes P fs (resolve P fs ctx) (depth + 1) ctx spec _
    rfl (md5TextOf_lines depth _ spec.Constants spec.Fields _ hlines)
  obtain ⟨c', hrun', _⟩ := ComputeMD5Text_computes P fs (resolve P fs ctx) (depth + 1) ctx spec' _
    rfl (md5TextOf_lines depth _ spec'.Constants spec'.Fields _ hlines')
  rw [ht] at hrun
  rw [ht'] at hrun'
  have hdiff : Join (spec.Constants.map constantLine ++ (lp ++ lf :: (lm ++ lg :: lq))) "\n"
      ≠ Join (spec'.Constants.map constantLine ++ (lp ++ lg :: (lm ++ lf :: lq))) "\n" := by
    intro h
    rw [hconst] at h
    have hl := Join_inj _ _ (by simp) hclean (by rw [← hconst]; exact hclean') h
    have h1 := List.append_cancel_left hl
    have h2 := List.append_cancel_left h1
    simp only [List.cons.injEq] at h2
    exact hne h2.1
  refine ⟨_, _, c, c', hrun, hrun', hdiff, ?_, ?_, fun hcoll h => hdiff (hcoll h)⟩
  · simp [ComputeMsgMD5, ComputeMsgMD5With, hrun, digestOfText, Hash.Write, Hash.Sum, md5New]
  · simp [ComputeMsgMD5, ComputeMsgMD5With, hrun', digestOfText, Hash.Write, Hash.Sum, md5New]

/-- The definition `pkg/B` with the fields `pkg/A a` and `int32 n`, and the
same with the two fields exchanged. -/
theorem swap_fields_changes_text_witness :
    fieldLinesWith (digestOf 1 (resolve specHelpers sampleFiles sampleContext))
      (resolve specHelpers sampleFiles sampleContext) sampleB.Fields
      = some ["ca85c322958a9a81e938f6b9641ea3cf a", "int32 n"] ∧
    (∃ t t' c c',
      ComputeMD5Text specHelpers sampleFiles 2 sampleContext sampleB = some (.ok t, c) ∧
      ComputeMD5Text specHelpers sampleFiles 2 sampleContext sampleBSwapped = some (.ok t', c') ∧
      t ≠ t' ∧
      ComputeMsgMD5 specHelpers sampleFiles 2 sampleContext sampleB
        = some (.ok (digestOfText t), c) ∧
      ComputeMsgMD5 specHelpers sampleFiles 2 sampleContext sampleBSwapped
        = some (.ok (digestOfText t'), c') ∧
      ((digestOfText t = digestOfText t' → t = t') → digestOfText t ≠ digestOfText t')) ∧
    ComputeMsgMD5 specHelpers sampleFiles 2 sampleContext sampleB
      = some (.ok "ea339edd21a90b42f4434d772015c497", sampleLoadedA) ∧
    ComputeMsgMD5 specHelpers sampleFiles 2 sampleContext sampleBSwapped
      = some (.ok "2dc7fb8a0105a878a60e23ceff561fed", sampleLoadedA) :=
  ⟨by decide!,
    swap_fields_changes_text specHelpers sampleFiles 1 sampleContext sampleB sampleBSwapped
      [] [] [] ⟨"pkg", "A", "a", .scalar⟩ ⟨"", "int32", "n", .scalar⟩
      ["ca85c322958a9a81e938f6b9641ea3cf a", "int32 n"] rfl rfl rfl (by decide!) (by decide)
      (by decide!),
    by decide!, by decide!⟩

/-- C9, as stated, fails: the fields `a/T x` and `b/T x` differ, and since
`a/T` and `b/T` have the same digest the two fields have the same line;
the definitions with the two fields in either order have the same text and
the same digest. -/
theorem swap_same_line_counterexample :
    (⟨"a", "T", "x", .scalar⟩ : Field) ≠ ⟨"b", "T", "x", .scalar⟩ ∧
    twinFirst.Fields = [⟨"a", "T", "x", .scalar⟩, ⟨"b", "T", "x", .scalar⟩] ∧
    twinSecond.Fields = [⟨"b", "T", "x", .scalar⟩, ⟨"a", "T", "x", .scalar⟩] ∧
    twinSecond.Constants = twinFirst.Constants ∧
    ComputeMD5Text specHelpers noFiles 2 twinContext twinFirst
      = some (.ok "60938f1c87eccc942a996623a870236c x\n60938f1c87eccc942a996623a870236c x",
          twinContext) ∧
    ComputeMD5Text specHelpers noFiles 2 twinContext twinSecond
      = some (.ok "60938f1c87eccc942a996623a870236c x\n60938f1c87eccc942a996623a870236c x",
          twinContext) ∧
    ComputeMsgMD5 specHelpers noFiles 2 twinContext twinFirst
      = some (.ok "67305f8c2422b723d0b68a4610b7efc6", twinContext) ∧
    ComputeMsgMD5 specHelpers noFiles 2 twinContext twinSecond
      = some (.ok "67305f8c2422b723d0b68a4610b7efc6", twinContext) := by
  decide!

/-! ### The digest of a service -/

/-- C3: when the texts of the request and of the response of a service are
`reqText` and `resText`, the two calls of `ComputeMD5Text` return them and
`ComputeSrvMD5` returns the hexadecimal MD5 digest of the bytes of
`reqText` followed at once by the bytes of `resText`; that digest is not
the digest of `reqText` followed by the digest of `resText`. -/
theorem ComputeSrvMD5_hashes_concatenation (P : Helpers) (fs : FileSystem) (depth : Nat)
    (ctx : MsgContext) (spec : SrvSpec) (reqText resText : String)
    (hreq : md5TextOf depth (resolve P fs ctx) spec.Request.Constants spec.Request.Fields
      = some reqText)
    (hres : md5TextOf depth (resolve P fs ctx) spec.Response.Constants spec.Response.Fields
      = some resText) :
    ∃ ctx1 ctx2,
      ComputeMD5Text P fs depth ctx spec.Request = some (.ok reqText, ctx1) ∧
      ComputeMD5Text P fs depth ctx1 spec.Response = some (.ok resText, ctx2) ∧
      ComputeSrvMD5 P fs depth ctx spec
        = some (.ok (EncodeToString (md5Sum (toBytes (reqText ++ resText)))), ctx2) ∧
      EncodeToString (md5Sum (toBytes (reqText ++ resText)))
        ≠ EncodeToString (md5Sum (toBytes reqText))
          ++ EncodeToString (md5Sum (toBytes resText)) := by
  obtain ⟨ctx1, h1, henv1⟩ :=
    ComputeMD5Text_computes P fs (resolve P fs ctx) depth ctx spec.Request reqText rfl hreq
  obtain ⟨ctx2, h2, _⟩ :=
    ComputeMD5Text_computes P fs (resolve P fs ctx) depth ctx1 spec.Response resText henv1 hres
  exact ⟨ctx1, ctx2, h1, h2, ComputeSrvMD5_of_texts P fs depth ctx spec reqText resText ctx1 ctx2
    h1 h2, digest_ne_digests reqText resText⟩

/-- The service `pkg/S` with the request `int32 a` and the response
`int32 b`. -/
theorem ComputeSrvMD5_hashes_concatenation_witness :
    md5TextOf 1 (resolve specHelpers noFiles sampleSrvContext) sampleSrv.Request.Constants
      sampleSrv.Request.Fields = some "int32 a" ∧
    md5TextOf 1 (resolve specHelpers noFiles sampleSrvContext) sampleSrv.Response.Constants
      sampleSrv.Response.Fields = some "int32 b" ∧
    (∃ ctx1 ctx2,
      ComputeMD5Text specHelpers noFiles 1 sampleSrvContext sampleSrv.Request
        = some (.ok "int32 a", ctx1) ∧
      ComputeMD5Text specHelpers noFiles 1 ctx1 sampleSrv.Response
        = some (.ok "int32 b", ctx2) ∧
      ComputeSrvMD5 specHelpers noFiles 1 sampleSrvContext sampleSrv
        = some (.ok (EncodeToString (md5Sum (toBytes ("int32 a" ++ "int32 b")))), ctx2) ∧
      EncodeToString (md5Sum (toBytes ("int32 a" ++ "int32 b")))
        ≠ EncodeToString (md5Sum (toBytes "int32 a"))
          ++ EncodeToString (md5Sum (toBytes "int32 b"))) ∧
    ComputeSrvMD5 specHelpers noFiles 1 sampleSrvContext sampleSrv
      = some (.ok "25ba3fa9d5d930574c4d72dc4151cd60", sampleSrvContext) :=
  ⟨by decide, by decide,
    ComputeSrvMD5_hashes_concatenation specHelpers noFiles 1 sampleSrvContext sampleSrv
      "int32 a" "int32 b" (by decide) (by decide),
    by decide!⟩

/-! ### Enough depth -/

section Depth

variable (env : String → Option (List Constant × List Field)) (rank : String → Nat)

/-- The loop over the fields returns a text when the digest of every message
that a field refers to is defined. -/
theorem fieldsText_defined (digest : List Constant → List Field → Option String)
    (fields : List Field) (buf : String)
    (h : ∀ g ∈ fields, g.Package ≠ "" → ∀ cs fs,
      env (g.Package ++ "/" ++ g.Type_) = some (cs, fs) → (digest cs fs).isSome) :
    (fieldsText digest env fields buf).isSome := by
  induction fields generalizing buf with
  | nil => rfl
  | cons g rest ih =>
    have hrest : ∀ g' ∈ rest, g'.Package ≠ "" → ∀ cs fs,
        env (g'.Package ++ "/" ++ g'.Type_) = some (cs, fs) → (digest cs fs).isSome :=
      fun g' hg' => h g' (List.mem_cons_of_mem _ hg')
    unfold fieldsText
    split
    · exact ih _ hrest
    · next hp =>
      split
      · rfl
      · next cs fs hX =>
        have hd := h g (List.mem_cons_self _ _) hp cs fs hX
        split
        · next hnone => rw [hnone] at hd; exact absurd hd (by simp)
        · exact ih _ hrest

/-- When the references between definitions go down a rank, that is when no
definition refers to itself through others, a depth above the ranks of the
messages that the fields refer to is enough for the text to be defined. -/
theorem md5TextOf_defined
    (hrank : ∀ X cs fs, env X = some (cs, fs) → ∀ g ∈ fs, g.Package ≠ "" →
      rank (g.Package ++ "/" ++ g.Type_) < rank X)
    (depth : Nat) (constants : List Constant) (fields : List Field)
    (hfields : ∀ g ∈ fields, g.Package ≠ "" → rank (g.Package ++ "/" ++ g.Type_) < depth) :
    (md5TextOf (depth + 1) env constants fields).isSome := by
  induction depth generalizing constants fields with
  | zero =>
    unfold md5TextOf
    apply fieldsText_defined
    intro g hg hp
    exact absurd (hfields g hg hp) (Nat.not_lt_zero _)
  | succ d ih =>
    unfold md5TextOf
    apply fieldsText_defined
    intro g hg hp cs fs hX
    have hsub : ∀ g' ∈ fs, g'.Package ≠ "" → rank (g'.Package ++ "/" ++ g'.Type_) < d := by
      intro g' hg' hp'
      have h1 := hrank _ cs fs hX g' hg' hp'
      have h2 := hfields g hg hp
      omega
    have := ih cs fs hsub
    simpa using this

end Depth

/-- With references that go down a rank, `ComputeMD5Text` returns a text for
every spec at a depth above the ranks of the messages its fields refer
to. -/
theorem ComputeMD5Text_returns (P : Helpers) (fs : FileSystem) (ctx : MsgContext)
    (rank : String → Nat)
    (hrank : ∀ X cs fields, resolve P fs ctx X = some (cs, fields) → ∀ g ∈ fields,
      g.Package ≠ "" → rank (g.Package ++ "/" ++ g.Type_) < rank X)
    (depth : Nat) (spec : MsgSpec)
    (hfields : ∀ g ∈ spec.Fields, g.Package ≠ "" →
      rank (g.Package ++ "/" ++ g.Type_) < depth) :
    ∃ text ctx', ComputeMD5Text P fs (depth + 1) ctx spec = some (.ok text, ctx') ∧
      md5TextOf (depth + 1) (resolve P fs ctx) spec.Constants spec.Fields = some text := by
  have h := md5TextOf_defined (resolve P fs ctx) rank hrank depth spec.Constants spec.Fields
    hfields
  obtain ⟨text, ht⟩ := Option.isSome_iff_exists.mp h
  obtain ⟨ctx', hrun, _⟩ :=
    ComputeMD5Text_computes P fs (resolve P fs ctx) (depth + 1) ctx spec text rfl ht
  exact ⟨text, ctx', hrun, ht⟩

end Gengo
